import Mathlib

/-!
Shallow embedding of the supercat1337/event-emitter library.

The embedded code is the full `EventEmitter` class (src/unnamed/part_000),
which extends `EventEmitterLite` (the variant carrying the `ORIGINAL`
symbol).  JavaScript function objects are modelled by `Callable` values
identified by a numeric id (reference identity); the behaviour of a user
listener body is supplied by an environment `LEnv` mapping a listener id to
the finite list of registry actions the body performs (possibly ending in a
throw).  Meta-channel callbacks are modelled by `MetaEnv`, mapping a
callback id to `none` (normal return) or `some v` (the callback throws `v`).
All observable effects (listener invocations, meta-channel deliveries,
console logging, promise resolutions, timer cancellation) are recorded in an
append-only trace inside the emitter state.
-/

/-- Values passed as emission arguments and thrown as errors. -/
inductive Val where
  | nat : Nat → Val
  | str : String → Val
deriving DecidableEq, Repr

/-- The three reserved internal meta channels of the full `EventEmitter`. -/
inductive MetaCh where
  | hasListeners
  | noListeners
  | listenerError
deriving DecidableEq, Repr

/-- The string name of a meta channel, as used in the source. -/
def MetaCh.nameOf : MetaCh → String
  | .hasListeners => "#has-listeners"
  | .noListeners => "#no-listeners"
  | .listenerError => "#listener-error"

/-- The shape of a registered callable: a plain user listener, a `once`
wrapper (which captured the registration event and carries the `ORIGINAL`
tag of the wrapped listener), or the shared `onEvent` resolver closure
created by `waitForAnyEvent` (which captured the deduplicated event list and
whether a timer was scheduled). -/
inductive CallKind where
  | plain : CallKind
  | onceWrap : String → Nat → CallKind
  | waiter : List String → Bool → CallKind
deriving DecidableEq, Repr

/-- A JavaScript function object: a reference identity plus its shape. -/
structure Callable where
  id : Nat
  kind : CallKind
deriving DecidableEq, Repr

/-- The `ORIGINAL` symbol property: only `once` wrappers carry it. -/
def originalOf : Callable → Option Nat
  | ⟨_, CallKind.onceWrap _ o⟩ => some o
  | _ => none

/-- The removal predicate of `EventEmitterLite.removeListener`:
`l === listener || l[ORIGINAL] === listener`. -/
def matchesListener (l : Callable) (targetId : Nat) : Bool :=
  l.id == targetId || originalOf l == some targetId

/-- Observable events recorded while the emitter runs. -/
inductive TraceEv where
  | invoke : Nat → String → List Val → TraceEv
  | meta : Nat → MetaCh → List Val → TraceEv
  | logListener : String → Val → TraceEv
  | logInternal : Val → TraceEv
  | resolve : Bool → TraceEv
  | timerCancel : TraceEv
deriving DecidableEq, Repr

/-- The state of a full `EventEmitter` instance: the user registry
(`events`, an insertion-ordered association list), the three internal
meta-channel listener lists, the `#isDestroyed` and `#isReportingError`
flags, the public `logErrors` flag, and the observation trace. -/
structure EmState where
  events : List (String × List Callable)
  hasL : List Nat
  noL : List Nat
  errL : List Nat
  isDestroyed : Bool
  isReportingError : Bool
  logErrors : Bool
  trace : List TraceEv
deriving DecidableEq, Repr

/-- A freshly constructed emitter. -/
def initState : EmState :=
  { events := [], hasL := [], noL := [], errL := [], isDestroyed := false,
    isReportingError := false, logErrors := true, trace := [] }

/-- `this.#internalEvents[ch]`. -/
def metaList (s : EmState) : MetaCh → List Nat
  | .hasListeners => s.hasL
  | .noListeners => s.noL
  | .listenerError => s.errL

/-- Lookup `this.events[event]` (`undefined` becomes `none`). -/
def findEv : List (String × List Callable) → String → Option (List Callable)
  | [], _ => none
  | (k, l) :: rest, e => if k == e then some l else findEv rest e

/-- `this.events[event]` of a state. -/
def getEv (s : EmState) (e : String) : Option (List Callable) :=
  findEv s.events e

/-- The listener count for an event (0 when the key is absent). -/
def countEv (s : EmState) (e : String) : Nat :=
  ((getEv s e).getD []).length

/-- `if (!this.events[event]) this.events[event] = []; this.events[event].push(c)`:
append to the existing key, or create the key at the end of enumeration
order. -/
def pushEv : List (String × List Callable) → String → Callable → List (String × List Callable)
  | [], e, c => [(e, [c])]
  | (k, l) :: rest, e, c =>
    if k == e then (k, l ++ [c]) :: rest else (k, l) :: pushEv rest e c

/-- Replace the value stored at a key (in-place `splice` on the live array). -/
def updEv : List (String × List Callable) → String → List Callable → List (String × List Callable)
  | [], _, _ => []
  | (k, l) :: rest, e, nl =>
    if k == e then (k, nl) :: rest else (k, l) :: updEv rest e nl

/-- `delete this.events[event]`. -/
def deleteEv : List (String × List Callable) → String → List (String × List Callable)
  | [], _ => []
  | (k, l) :: rest, e => if k == e then rest else (k, l) :: deleteEv rest e

/-- Remove the first entry matching the removal predicate (the
`findIndex` / `splice` pair of `EventEmitterLite.removeListener`). -/
def eraseMatch : List Callable → Nat → List Callable
  | [], _ => []
  | c :: l, tid => if matchesListener c tid then l else c :: eraseMatch l tid

/-- Behaviour environment of meta-channel callbacks: `none` returns
normally, `some v` throws `v`. -/
def MetaEnv : Type := Nat → Option Val

/-- A registry action performed by a user listener body.  `actThrow`
aborts the body with the given thrown value. -/
inductive LAct where
  | actOn : String → Nat → LAct
  | actOnce : String → Nat → Nat → LAct
  | actOff : String → Nat → LAct
  | actClearEvent : String → LAct
  | actThrow : Val → LAct
deriving DecidableEq, Repr

/-- Behaviour environment of user listener bodies. -/
def LEnv : Type := Nat → List LAct

/-- The error message of the destroyed-state guard. -/
def destroyedMsg : String := "EventEmitter is destroyed"

/-- The unsubscriber closure returned by `on`: it captured the event name
and the registered listener (by reference, i.e. by id). -/
structure Unsub where
  event : String
  targetId : Nat
deriving DecidableEq, Repr

namespace EventEmitter

/-- The dispatch loop of `#emitInternal` in the regime where every thrown
callback error takes the guard branch (`event === '#listener-error' ||
this.#isReportingError`): the error is logged when `logErrors` is set and
then swallowed, and iteration continues. -/
def runMetaQueueGuarded (metaEnv : MetaEnv) (ch : MetaCh) (args : List Val) :
    List Nat → EmState → EmState
  | [], s => s
  | mid :: rest, s =>
    let s1 : EmState := { s with trace := s.trace ++ [TraceEv.meta mid ch args] }
    match metaEnv mid with
    | none => runMetaQueueGuarded metaEnv ch args rest s1
    | some err =>
      runMetaQueueGuarded metaEnv ch args rest
        (if s1.logErrors then { s1 with trace := s1.trace ++ [TraceEv.logInternal err] } else s1)

/-- `#emitInternal('#listener-error', ...args)`.  For this channel the
catch guard `event === '#listener-error'` always holds, so the dispatch is
the guarded loop: secondary failures are never routed again. -/
def reportError (metaEnv : MetaEnv) (args : List Val) (s : EmState) : EmState :=
  let queue := s.errL
  if queue.isEmpty then s
  else runMetaQueueGuarded metaEnv MetaCh.listenerError args queue s

/-- The dispatch loop of `#emitInternal` for the lifecycle channels
(`#has-listeners` / `#no-listeners`).  A throwing callback is logged and
swallowed when `#isReportingError` is already set; otherwise the flag is
raised, the failure is reported once through the `#listener-error` channel,
and the flag is reset (the `finally` block). -/
def runMetaQueue (metaEnv : MetaEnv) (ch : MetaCh) (args : List Val) :
    List Nat → EmState → EmState
  | [], s => s
  | mid :: rest, s =>
    let s1 : EmState := { s with trace := s.trace ++ [TraceEv.meta mid ch args] }
    match metaEnv mid with
    | none => runMetaQueue metaEnv ch args rest s1
    | some err =>
      if s1.isReportingError then
        runMetaQueue metaEnv ch args rest
          (if s1.logErrors then { s1 with trace := s1.trace ++ [TraceEv.logInternal err] } else s1)
      else
        let s2 : EmState := { s1 with isReportingError := true }
        let s3 := reportError metaEnv ([err, Val.str ch.nameOf] ++ args) s2
        runMetaQueue metaEnv ch args rest { s3 with isReportingError := false }

/-- `#emitInternal(event, ...args)`: return immediately when the channel
has no callbacks, otherwise dispatch over a snapshot of the channel's
callback list. -/
def emitInternal (metaEnv : MetaEnv) (ch : MetaCh) (args : List Val) (s : EmState) : EmState :=
  match ch with
  | .listenerError => reportError metaEnv args s
  | _ =>
    let queue := metaList s ch
    if queue.isEmpty then s
    else runMetaQueue metaEnv ch args queue s

/-- `EventEmitter.on`: destroyed guard, first-listener check, delegation to
`EventEmitterLite.on` (create key if absent, push), `#has-listeners`
notification for a first listener, and the unsubscriber closure. -/
def onOp (metaEnv : MetaEnv) (s : EmState) (e : String) (c : Callable) :
    Except String (EmState × Unsub) :=
  if s.isDestroyed then Except.error destroyedMsg
  else
    let isFirst := match findEv s.events e with
      | none => true
      | some l => l.isEmpty
    let s1 : EmState := { s with events := pushEv s.events e c }
    let s2 := if isFirst then emitInternal metaEnv MetaCh.hasListeners [Val.str e] s1 else s1
    Except.ok (s2, ⟨e, c.id⟩)

/-- `EventEmitter.removeListener`: silent no-op when destroyed or the key
is absent; otherwise delegate to `EventEmitterLite.removeListener` (remove
the first occurrence matching by identity or `ORIGINAL` tag, delete the key
when the array empties) and emit `#no-listeners` when the key was deleted. -/
def removeListener (metaEnv : MetaEnv) (s : EmState) (e : String) (tid : Nat) : EmState :=
  if s.isDestroyed then s
  else
    match findEv s.events e with
    | none => s
    | some l =>
      if l.any (fun c => matchesListener c tid) then
        if (eraseMatch l tid).isEmpty then
          emitInternal metaEnv MetaCh.noListeners [Val.str e]
            { s with events := deleteEv s.events e }
        else
          { s with events := updEv s.events e (eraseMatch l tid) }
      else s

/-- `off` is an alias for `removeListener`. -/
def off (metaEnv : MetaEnv) (s : EmState) (e : String) (tid : Nat) : EmState :=
  removeListener metaEnv s e tid

/-- Running an unsubscriber closure: `that.removeListener(event, listener)`. -/
def runUnsub (metaEnv : MetaEnv) (s : EmState) (u : Unsub) : EmState :=
  removeListener metaEnv s u.event u.targetId

/-- `EventEmitterLite.once`: build the wrapper carrying the `ORIGINAL` tag
and register it through `this.on` (dynamically dispatched to the full
`EventEmitter.on`, including its destroyed guard). -/
def once (metaEnv : MetaEnv) (s : EmState) (e : String) (origId wrapId : Nat) :
    Except String (EmState × Unsub) :=
  onOp metaEnv s e ⟨wrapId, CallKind.onceWrap e origId⟩

/-- `EventEmitter.clearEventListeners`: destroyed guard; when the event has
at least one listener, delete the key and emit a single `#no-listeners`
notification. -/
def clearEventListeners (metaEnv : MetaEnv) (s : EmState) (e : String) : EmState :=
  if s.isDestroyed then s
  else
    match findEv s.events e with
    | none => s
    | some l =>
      if l.length > 0 then
        emitInternal metaEnv MetaCh.noListeners [Val.str e]
          { s with events := deleteEv s.events e }
      else s

/-- `EventEmitter.clear`: snapshot the key list, then clear each event. -/
def clear (metaEnv : MetaEnv) (s : EmState) : EmState :=
  if s.isDestroyed then s
  else (s.events.map Prod.fst).foldl (fun st e => clearEventListeners metaEnv st e) s

/-- `EventEmitter.destroy`: idempotent; on first call clear all events,
flip the destroyed flag, reset the meta-channel registry and the user
registry. -/
def destroy (metaEnv : MetaEnv) (s : EmState) : EmState :=
  if s.isDestroyed then s
  else
    let s1 := clear metaEnv s
    { s1 with isDestroyed := true, hasL := [], noL := [], errL := [], events := [] }

/-- `#onInternalEvent` behind the three `onXxx` meta subscriptions, with the
destroyed guard they all share. -/
def onMeta (s : EmState) (ch : MetaCh) (mid : Nat) : Except String EmState :=
  if s.isDestroyed then Except.error destroyedMsg
  else
    Except.ok (match ch with
      | .hasListeners => { s with hasL := s.hasL ++ [mid] }
      | .noListeners => { s with noL := s.noL ++ [mid] }
      | .listenerError => { s with errL := s.errL ++ [mid] })

/-- `onHasEventListeners`. -/
def onHasEventListeners (s : EmState) (mid : Nat) : Except String EmState :=
  onMeta s MetaCh.hasListeners mid

/-- `onNoEventListeners`. -/
def onNoEventListeners (s : EmState) (mid : Nat) : Except String EmState :=
  onMeta s MetaCh.noListeners mid

/-- `onListenerError`. -/
def onListenerError (s : EmState) (mid : Nat) : Except String EmState :=
  onMeta s MetaCh.listenerError mid

/-- Run a user listener body: execute its registry actions in order; a
destroyed-state error raised by an action, or an `actThrow`, aborts the body
and is thrown to the caller. -/
def runActs (metaEnv : MetaEnv) : List LAct → EmState → EmState × Option Val
  | [], s => (s, none)
  | LAct.actThrow v :: _, s => (s, some v)
  | LAct.actOn e lid :: rest, s =>
    match onOp metaEnv s e ⟨lid, CallKind.plain⟩ with
    | Except.ok (s1, _) => runActs metaEnv rest s1
    | Except.error m => (s, some (Val.str m))
  | LAct.actOnce e oid wid :: rest, s =>
    match once metaEnv s e oid wid with
    | Except.ok (s1, _) => runActs metaEnv rest s1
    | Except.error m => (s, some (Val.str m))
  | LAct.actOff e lid :: rest, s => runActs metaEnv rest (removeListener metaEnv s e lid)
  | LAct.actClearEvent e :: rest, s => runActs metaEnv rest (clearEventListeners metaEnv s e)

/-- The `cleanup` closure of `waitForAnyEvent`: cancel the pending timer if
one was scheduled, then run every recorded unsubscriber (one per unique
subscribed event, all bound to the shared resolver `wid`). -/
def cleanupWaiter (metaEnv : MetaEnv) (evl : List String) (hasTimer : Bool) (wid : Nat)
    (s : EmState) : EmState :=
  let s1 := if hasTimer then { s with trace := s.trace ++ [TraceEv.timerCancel] } else s
  evl.foldl (fun st e => removeListener metaEnv st e wid) s1

/-- Invoke one registered callable with the emission arguments.  A plain
listener records its invocation and runs its body; a `once` wrapper first
removes its own registration (`this.removeListener(event, g)`), then applies
the original listener; the `waitForAnyEvent` resolver runs `cleanup` and
resolves `true`.  Returns the thrown value, if any. -/
def runCallable (env : LEnv) (metaEnv : MetaEnv) (s : EmState) (c : Callable)
    (ev : String) (args : List Val) : EmState × Option Val :=
  let s0 : EmState := { s with trace := s.trace ++ [TraceEv.invoke c.id ev args] }
  match c.kind with
  | CallKind.plain => runActs metaEnv (env c.id) s0
  | CallKind.onceWrap regEv origId =>
    let s1 := removeListener metaEnv s0 regEv c.id
    runActs metaEnv (env origId)
      { s1 with trace := s1.trace ++ [TraceEv.invoke origId ev args] }
  | CallKind.waiter evl hasTimer =>
    let s1 := cleanupWaiter metaEnv evl hasTimer c.id s0
    ({ s1 with trace := s1.trace ++ [TraceEv.resolve true] }, none)

/-- The dispatch loop of `EventEmitter.emit` over the snapshot: each entry
is invoked in a `try`/`catch`; a thrown error is routed to the
`#listener-error` channel and logged when `logErrors` is set. -/
def runQueue (env : LEnv) (metaEnv : MetaEnv) (ev : String) (args : List Val) :
    List Callable → EmState → EmState
  | [], s => s
  | c :: rest, s =>
    match runCallable env metaEnv s c ev args with
    | (s1, none) => runQueue env metaEnv ev args rest s1
    | (s1, some err) =>
      let s2 := reportError metaEnv ([err, Val.str ev] ++ args) s1
      let s3 := if s2.logErrors then
          { s2 with trace := s2.trace ++ [TraceEv.logListener ev err] } else s2
      runQueue env metaEnv ev args rest s3

/-- `EventEmitter.emit`: silent no-op when destroyed or when the event has
no registered listeners; otherwise take an immutable snapshot of the
listener sequence and dispatch over it. -/
def emit (env : LEnv) (metaEnv : MetaEnv) (s : EmState) (ev : String) (args : List Val) :
    EmState :=
  if s.isDestroyed then s
  else
    match findEv s.events ev with
    | none => s
    | some l => runQueue env metaEnv ev args l s

/-- `[...new Set(events)]`: deduplicate preserving first occurrences. -/
def dedupFirst (l : List String) : List String :=
  l.foldl (fun acc e => if e ∈ acc then acc else acc ++ [e]) []

/-- Subscribe the shared resolver to every event of a list. -/
def subscribeAll (metaEnv : MetaEnv) (c : Callable) (l : List String) (s : EmState) : EmState :=
  l.foldl (fun st e =>
    match onOp metaEnv st e c with
    | Except.ok (st1, _) => st1
    | Except.error _ => st) s

/-- The observable outcome of the synchronous part of `waitForAnyEvent`:
the state after all registrations, the deduplicated event list, the shared
resolver id, and whether a timeout timer was scheduled. -/
structure WaitResult where
  state : EmState
  uniques : List String
  waiterId : Nat
  timerScheduled : Bool
deriving Repr

/-- `EventEmitter.waitForAnyEvent`: destroyed guard, then (inside the
promise executor, which runs synchronously) deduplicate the event list,
subscribe the shared `onEvent` resolver to each unique event, and schedule
the timeout timer only when `max_wait_ms > 0`.  The resolver's later
behaviour is the `waiter` branch of `runCallable`; the timeout path is
`timeoutFire`. -/
def waitForAnyEvent (metaEnv : MetaEnv) (s : EmState) (events : List String)
    (maxWaitMs : Int) (wid : Nat) : Except String WaitResult :=
  if s.isDestroyed then Except.error destroyedMsg
  else
    let uniques := dedupFirst events
    let hasTimer : Bool := decide (maxWaitMs > 0)
    let c : Callable := ⟨wid, CallKind.waiter uniques hasTimer⟩
    Except.ok ⟨subscribeAll metaEnv c uniques s, uniques, wid, hasTimer⟩

/-- `EventEmitter.waitForEvent`: `return this.waitForAnyEvent([event], max_wait_ms)`. -/
def waitForEvent (metaEnv : MetaEnv) (s : EmState) (e : String) (maxWaitMs : Int)
    (wid : Nat) : Except String WaitResult :=
  waitForAnyEvent metaEnv s [e] maxWaitMs wid

/-- The timeout callback of `waitForAnyEvent`: `cleanup(); resolve(false)`. -/
def timeoutFire (metaEnv : MetaEnv) (uniques : List String) (wid : Nat) (s : EmState) :
    EmState :=
  let s1 := cleanupWaiter metaEnv uniques true wid s
  { s1 with trace := s1.trace ++ [TraceEv.resolve false] }

/-- One public operation, for replaying call sequences. -/
inductive Op where
  | opOn : String → Nat → Op
  | opOnce : String → Nat → Nat → Op
  | opOff : String → Nat → Op
  | opEmit : String → List Val → Op
  | opClearEvent : String → Op
  | opClear : Op
  | opDestroy : Op
deriving DecidableEq, Repr

/-- Apply one public operation; a thrown destroyed-state error leaves the
state unchanged (the exception propagates to the caller before any
mutation). -/
def applyOp (env : LEnv) (metaEnv : MetaEnv) (s : EmState) : Op → EmState
  | Op.opOn e lid =>
    match onOp metaEnv s e ⟨lid, CallKind.plain⟩ with
    | Except.ok (s1, _) => s1
    | Except.error _ => s
  | Op.opOnce e oid wid =>
    match once metaEnv s e oid wid with
    | Except.ok (s1, _) => s1
    | Except.error _ => s
  | Op.opOff e lid => removeListener metaEnv s e lid
  | Op.opEmit e args => emit env metaEnv s e args
  | Op.opClearEvent e => clearEventListeners metaEnv s e
  | Op.opClear => clear metaEnv s
  | Op.opDestroy => destroy metaEnv s

/-- Replay a sequence of public operations. -/
def replay (env : LEnv) (metaEnv : MetaEnv) (ops : List Op) (s : EmState) : EmState :=
  ops.foldl (applyOp env metaEnv) s

end EventEmitter

/-! ### Observation helpers used in the statements -/

/-- Concatenate the images of a list-valued function. -/
def joinMap (f : α → List β) : List α → List β
  | [] => []
  | a :: l => f a ++ joinMap f l

/-- The trace produced by one guarded meta dispatch pass: each callback is
invoked; a throwing callback only contributes a critical-error log entry
when `logErrors` is set. -/
def guardedTrace (metaEnv : MetaEnv) (logE : Bool) (ch : MetaCh) (args : List Val) :
    List Nat → List TraceEv
  | [] => []
  | mid :: rest =>
    TraceEv.meta mid ch args ::
      ((match metaEnv mid with
        | none => []
        | some err => if logE then [TraceEv.logInternal err] else []) ++
        guardedTrace metaEnv logE ch args rest)

/-- The trace produced by reporting one error through the
`#listener-error` channel. -/
def errorReportTrace (metaEnv : MetaEnv) (logE : Bool) (args : List Val)
    (queue : List Nat) : List TraceEv :=
  guardedTrace metaEnv logE MetaCh.listenerError args queue

/-- The trace produced by one lifecycle meta dispatch pass entered with the
reentrancy flag down: a throwing callback contributes exactly one error
report through the `#listener-error` channel. -/
def lifecycleTrace (metaEnv : MetaEnv) (logE : Bool) (ch : MetaCh) (args : List Val)
    (errQ : List Nat) : List Nat → List TraceEv
  | [] => []
  | mid :: rest =>
    TraceEv.meta mid ch args ::
      ((match metaEnv mid with
        | none => []
        | some err =>
          errorReportTrace metaEnv logE ([err, Val.str ch.nameOf] ++ args) errQ) ++
        lifecycleTrace metaEnv logE ch args errQ rest)

/-- The listener invocations recorded in a trace, in order. -/
def invokesOf : List TraceEv → List (Nat × String × List Val)
  | [] => []
  | TraceEv.invoke i e a :: l => (i, e, a) :: invokesOf l
  | _ :: l => invokesOf l

/-- The invocations contributed by dispatching one snapshot entry: a plain
listener fires once; a `once` wrapper fires and then applies its original;
the wait resolver fires once. -/
def invokeTriples (c : Callable) (ev : String) (args : List Val) :
    List (Nat × String × List Val) :=
  match c.kind with
  | CallKind.plain => [(c.id, ev, args)]
  | CallKind.onceWrap _ o => [(c.id, ev, args), (o, ev, args)]
  | CallKind.waiter _ _ => [(c.id, ev, args)]

/-- The registry invariant: every key present in the mapping holds a
non-empty listener sequence. -/
def EmWF (s : EmState) : Prop := ∀ p ∈ s.events, p.2 ≠ []

/-- `t` agrees with `s` on every field except possibly `events` and
`trace` (what the registry operations may change). -/
def RegCore (s t : EmState) : Prop :=
  t.hasL = s.hasL ∧ t.noL = s.noL ∧ t.errL = s.errL ∧
  t.isDestroyed = s.isDestroyed ∧ t.isReportingError = s.isReportingError ∧
  t.logErrors = s.logErrors

/-- `t` agrees with `s` on every field except possibly `trace` (what the
meta dispatch machinery may change). -/
def MetaOnly (s t : EmState) : Prop := RegCore s t ∧ t.events = s.events

/-- `t`'s trace extends `s`'s trace (traces are append-only). -/
def TraceExt (s t : EmState) : Prop := ∃ d, t.trace = s.trace ++ d

/-- The number of registrations in a listener sequence that the removal
predicate matches for a given target. -/
def matchCount (l : List Callable) (tid : Nat) : Nat :=
  l.countP (fun c => matchesListener c tid)

/-- No listener-failure console log appears in the trace. -/
def NoLogListener (l : List TraceEv) : Prop :=
  ∀ e v, TraceEv.logListener e v ∉ l

/-! ### Concrete environments and states used in scenarios -/

/-- A listener environment in which every listener body does nothing. -/
def envNil : LEnv := fun _ => []

/-- A meta environment in which no meta callback throws. -/
def metaNil : MetaEnv := fun _ => none

/-- A meta environment in which exactly the callback `mid` throws `v`. -/
def metaThrow (mid : Nat) (v : Val) : MetaEnv :=
  fun m => if m == mid then some v else none

/-- Listener 1 registers listener 2 on `"a"` when invoked (the snapshot
scenario of the spec). -/
def envAddB : LEnv := fun lid => if lid == 1 then [LAct.actOn "a" 2] else []

/-- Listener 5 throws the value 9 when invoked. -/
def envThrow5 : LEnv := fun lid => if lid == 5 then [LAct.actThrow (Val.nat 9)] else []

/-- Extract the state of a successful subscription result (the scenarios
only use it where the operation succeeds). -/
def okState (r : Except String (EmState × Unsub)) : EmState :=
  match r with
  | Except.ok p => p.1
  | Except.error _ => initState

/-- Extract the state of a successful meta subscription result. -/
def okStateM (r : Except String EmState) : EmState :=
  match r with
  | Except.ok t => t
  | Except.error _ => initState

/-- A state with plain listener 1 registered on `"a"`. -/
def sA : EmState := okState (EventEmitter.onOp metaNil initState "a" ⟨1, CallKind.plain⟩)

/-- A state with `once("a", 1)` registered through wrapper 2. -/
def sOnce : EmState := okState (EventEmitter.once metaNil initState "a" 1 2)

/-- A state with plain listener 1 registered twice on `"a"`. -/
def sDup : EmState :=
  okState (EventEmitter.onOp metaNil
    (okState (EventEmitter.onOp metaNil initState "a" ⟨1, CallKind.plain⟩))
    "a" ⟨1, CallKind.plain⟩)

/-- A state with error meta callback 100 and plain listeners 5 and 6 on `"b"`. -/
def sErr : EmState :=
  okState (EventEmitter.onOp metaNil
    (okState (EventEmitter.onOp metaNil
      (okStateM (EventEmitter.onListenerError initState 100))
      "b" ⟨5, CallKind.plain⟩))
    "b" ⟨6, CallKind.plain⟩)

/-- A state with has-listeners meta callback 7 registered. -/
def sHasMeta : EmState := okStateM (EventEmitter.onHasEventListeners initState 7)

/-- A state with has-listeners callback 100 and error callback 200. -/
def sMeta : EmState :=
  okStateM (EventEmitter.onListenerError
    (okStateM (EventEmitter.onHasEventListeners initState 100)) 200)

/-- The registry keys are pairwise distinct (a JavaScript object cannot
hold the same key twice). -/
def KeysND (s : EmState) : Prop := (s.events.map Prod.fst).Nodup

/-- Extract a successful wait-call result (used only where the call
succeeds). -/
def okWait (r : Except String EventEmitter.WaitResult) : EventEmitter.WaitResult :=
  match r with
  | Except.ok w => w
  | Except.error _ => ⟨initState, [], 0, false⟩

/-! ### Closed forms of the meta dispatch machinery -/

theorem runMetaQueueGuarded_eq (metaEnv : MetaEnv) (ch : MetaCh) (args : List Val)
    (q : List Nat) (s : EmState) :
    EventEmitter.runMetaQueueGuarded metaEnv ch args q s =
      { s with trace := s.trace ++ guardedTrace metaEnv s.logErrors ch args q } := by
  induction q generalizing s with
  | nil => simp [EventEmitter.runMetaQueueGuarded, guardedTrace]
  | cons mid rest ih =>
    rcases s with ⟨ev, hl, nl, el, d, rep, lg, tr⟩
    cases hm : metaEnv mid with
    | none =>
      simp only [EventEmitter.runMetaQueueGuarded, guardedTrace, hm]
      rw [ih]
      simp
    | some err =>
      cases lg with
      | true =>
        simp only [EventEmitter.runMetaQueueGuarded, guardedTrace, hm]
        simp [ih, List.append_assoc]
      | false =>
        simp only [EventEmitter.runMetaQueueGuarded, guardedTrace, hm]
        simp [ih, List.append_assoc]

theorem reportError_eq (metaEnv : MetaEnv) (args : List Val) (s : EmState) :
    EventEmitter.reportError metaEnv args s =
      { s with trace := s.trace ++ errorReportTrace metaEnv s.logErrors args s.errL } := by
  rcases s with ⟨ev, hl, nl, el, d, rep, lg, tr⟩
  cases el with
  | nil => simp [EventEmitter.reportError, errorReportTrace, guardedTrace]
  | cons a l => simp [EventEmitter.reportError, errorReportTrace, runMetaQueueGuarded_eq]

theorem runMetaQueue_eq_false (metaEnv : MetaEnv) (ch : MetaCh) (args : List Val)
    (q : List Nat) (s : EmState) (h : s.isReportingError = false) :
    EventEmitter.runMetaQueue metaEnv ch args q s =
      { s with trace := s.trace ++ lifecycleTrace metaEnv s.logErrors ch args s.errL q } := by
  induction q generalizing s with
  | nil => simp [EventEmitter.runMetaQueue, lifecycleTrace]
  | cons mid rest ih =>
    rcases s with ⟨ev, hl, nl, el, d, rep, lg, tr⟩
    simp only [EmState.isReportingError] at h
    subst h
    cases hm : metaEnv mid with
    | none =>
      simp only [EventEmitter.runMetaQueue, lifecycleTrace, hm]
      simp [ih, List.append_assoc]
    | some err =>
      simp only [EventEmitter.runMetaQueue, lifecycleTrace, hm]
      simp [reportError_eq, ih, List.append_assoc]

theorem runMetaQueue_eq_true (metaEnv : MetaEnv) (ch : MetaCh) (args : List Val)
    (q : List Nat) (s : EmState) (h : s.isReportingError = true) :
    EventEmitter.runMetaQueue metaEnv ch args q s =
      { s with trace := s.trace ++ guardedTrace metaEnv s.logErrors ch args q } := by
  induction q generalizing s with
  | nil => simp [EventEmitter.runMetaQueue, guardedTrace]
  | cons mid rest ih =>
    rcases s with ⟨ev, hl, nl, el, d, rep, lg, tr⟩
    simp only [EmState.isReportingError] at h
    subst h
    cases hm : metaEnv mid with
    | none =>
      simp only [EventEmitter.runMetaQueue, guardedTrace, hm]
      simp [ih, List.append_assoc]
    | some err =>
      cases lg with
      | true =>
        simp only [EventEmitter.runMetaQueue, guardedTrace, hm]
        simp [ih, List.append_assoc]
      | false =>
        simp only [EventEmitter.runMetaQueue, guardedTrace, hm]
        simp [ih, List.append_assoc]

theorem emitInternal_err_eq (metaEnv : MetaEnv) (args : List Val) (s : EmState) :
    EventEmitter.emitInternal metaEnv MetaCh.listenerError args s =
      EventEmitter.reportError metaEnv args s := rfl

theorem emitInternal_lifecycle_eq (metaEnv : MetaEnv) (ch : MetaCh) (args : List Val)
    (s : EmState) (hch : ch ≠ MetaCh.listenerError) (h : s.isReportingError = false) :
    EventEmitter.emitInternal metaEnv ch args s =
      { s with trace :=
          s.trace ++ lifecycleTrace metaEnv s.logErrors ch args s.errL (metaList s ch) } := by
  cases ch with
  | listenerError => exact absurd rfl hch
  | hasListeners =>
    rcases s with ⟨ev, hl, nl, el, d, rep, lg, tr⟩
    simp only [EmState.isReportingError] at h
    subst h
    cases hl with
    | nil => simp [EventEmitter.emitInternal, metaList, lifecycleTrace]
    | cons a l =>
      simp [EventEmitter.emitInternal, metaList, runMetaQueue_eq_false]
  | noListeners =>
    rcases s with ⟨ev, hl, nl, el, d, rep, lg, tr⟩
    simp only [EmState.isReportingError] at h
    subst h
    cases nl with
    | nil => simp [EventEmitter.emitInternal, metaList, lifecycleTrace]
    | cons a l =>
      simp [EventEmitter.emitInternal, metaList, runMetaQueue_eq_false]

theorem emitInternal_lifecycle_eq_true (metaEnv : MetaEnv) (ch : MetaCh) (args : List Val)
    (s : EmState) (hch : ch ≠ MetaCh.listenerError) (h : s.isReportingError = true) :
    EventEmitter.emitInternal metaEnv ch args s =
      { s with trace :=
          s.trace ++ guardedTrace metaEnv s.logErrors ch args (metaList s ch) } := by
  cases ch with
  | listenerError => exact absurd rfl hch
  | hasListeners =>
    rcases s with ⟨ev, hl, nl, el, d, rep, lg, tr⟩
    simp only [EmState.isReportingError] at h
    subst h
    cases hl with
    | nil => simp [EventEmitter.emitInternal, metaList, guardedTrace]
    | cons a l =>
      simp [EventEmitter.emitInternal, metaList, runMetaQueue_eq_true]
  | noListeners =>
    rcases s with ⟨ev, hl, nl, el, d, rep, lg, tr⟩
    simp only [EmState.isReportingError] at h
    subst h
    cases nl with
    | nil => simp [EventEmitter.emitInternal, metaList, guardedTrace]
    | cons a l =>
      simp [EventEmitter.emitInternal, metaList, runMetaQueue_eq_true]

theorem emitInternal_shape (metaEnv : MetaEnv) (ch : MetaCh) (args : List Val) (s : EmState) :
    ∃ d, EventEmitter.emitInternal metaEnv ch args s = { s with trace := s.trace ++ d } := by
  cases ch with
  | listenerError => exact ⟨_, reportError_eq metaEnv args s⟩
  | hasListeners =>
    rcases Bool.dichotomy s.isReportingError with h | h
    · exact ⟨_, emitInternal_lifecycle_eq metaEnv _ args s (by simp) h⟩
    · exact ⟨_, emitInternal_lifecycle_eq_true metaEnv _ args s (by simp) h⟩
  | noListeners =>
    rcases Bool.dichotomy s.isReportingError with h | h
    · exact ⟨_, emitInternal_lifecycle_eq metaEnv _ args s (by simp) h⟩
    · exact ⟨_, emitInternal_lifecycle_eq_true metaEnv _ args s (by simp) h⟩

theorem metaOnly_emitInternal (metaEnv : MetaEnv) (ch : MetaCh) (args : List Val)
    (s : EmState) : MetaOnly s (EventEmitter.emitInternal metaEnv ch args s) := by
  obtain ⟨d, hd⟩ := emitInternal_shape metaEnv ch args s
  rw [hd]
  exact ⟨⟨rfl, rfl, rfl, rfl, rfl, rfl⟩, rfl⟩

theorem traceExt_emitInternal (metaEnv : MetaEnv) (ch : MetaCh) (args : List Val)
    (s : EmState) : TraceExt s (EventEmitter.emitInternal metaEnv ch args s) := by
  obtain ⟨d, hd⟩ := emitInternal_shape metaEnv ch args s
  exact ⟨d, by rw [hd]⟩

/-! ### Plumbing: RegCore and TraceExt algebra -/

theorem regCore_refl (s : EmState) : RegCore s s :=
  ⟨rfl, rfl, rfl, rfl, rfl, rfl⟩

theorem regCore_trans {s t u : EmState} (h1 : RegCore s t) (h2 : RegCore t u) :
    RegCore s u :=
  ⟨h2.1.trans h1.1, h2.2.1.trans h1.2.1, h2.2.2.1.trans h1.2.2.1,
   h2.2.2.2.1.trans h1.2.2.2.1, h2.2.2.2.2.1.trans h1.2.2.2.2.1,
   h2.2.2.2.2.2.trans h1.2.2.2.2.2⟩

theorem traceExt_refl (s : EmState) : TraceExt s s := ⟨[], by simp⟩

theorem traceExt_trans {s t u : EmState} (h1 : TraceExt s t) (h2 : TraceExt t u) :
    TraceExt s u := by
  obtain ⟨d1, hd1⟩ := h1
  obtain ⟨d2, hd2⟩ := h2
  exact ⟨d1 ++ d2, by rw [hd2, hd1, List.append_assoc]⟩

theorem traceExt_mem {s t : EmState} {x : TraceEv} (h : TraceExt s t)
    (hx : x ∈ s.trace) : x ∈ t.trace := by
  obtain ⟨d, hd⟩ := h
  rw [hd]
  exact List.mem_append_left d hx

theorem regCore_foldl {α : Type} (f : EmState → α → EmState)
    (hf : ∀ st x, RegCore st (f st x)) :
    ∀ (l : List α) (s : EmState), RegCore s (List.foldl f s l)
  | [], s => regCore_refl s
  | a :: l, s => regCore_trans (hf s a) (regCore_foldl f hf l (f s a))

theorem traceExt_foldl {α : Type} (f : EmState → α → EmState)
    (hf : ∀ st x, TraceExt st (f st x)) :
    ∀ (l : List α) (s : EmState), TraceExt s (List.foldl f s l)
  | [], s => traceExt_refl s
  | a :: l, s => traceExt_trans (hf s a) (traceExt_foldl f hf l (f s a))

theorem pres_foldl {α : Type} (P : EmState → Prop) (f : EmState → α → EmState)
    (hf : ∀ st x, P st → P (f st x)) :
    ∀ (l : List α) (s : EmState), P s → P (List.foldl f s l)
  | [], _, hs => hs
  | a :: l, s, hs => pres_foldl P f hf l (f s a) (hf s a hs)

/-! ### Structure of the registry operations -/

theorem onOp_destroyed (metaEnv : MetaEnv) (s : EmState) (e : String) (c : Callable)
    (h : s.isDestroyed = true) :
    EventEmitter.onOp metaEnv s e c = Except.error destroyedMsg := by
  simp [EventEmitter.onOp, h]

theorem onOp_ok (metaEnv : MetaEnv) (s : EmState) (e : String) (c : Callable)
    (t : EmState) (u : Unsub)
    (h : EventEmitter.onOp metaEnv s e c = Except.ok (t, u)) :
    s.isDestroyed = false ∧ u = ⟨e, c.id⟩ ∧ t.events = pushEv s.events e c ∧
    RegCore s t ∧ TraceExt s t := by
  by_cases hd : s.isDestroyed = true
  · simp [EventEmitter.onOp, hd] at h
  · rw [Bool.not_eq_true] at hd
    refine ⟨hd, ?_⟩
    unfold EventEmitter.onOp at h
    rw [if_neg (by simp [hd])] at h
    simp only [Except.ok.injEq, Prod.mk.injEq] at h
    obtain ⟨hT, hU⟩ := h
    refine ⟨hU.symm, ?_⟩
    have hcore1 : RegCore s { s with events := pushEv s.events e c } := regCore_refl s
    have hext1 : TraceExt s { s with events := pushEv s.events e c } := ⟨[], by simp⟩
    split at hT
    · subst hT
      obtain ⟨hcore2, hev2⟩ :=
        metaOnly_emitInternal metaEnv MetaCh.hasListeners [Val.str e]
          { s with events := pushEv s.events e c }
      exact ⟨hev2, regCore_trans hcore1 hcore2,
        traceExt_trans hext1
          (traceExt_emitInternal metaEnv MetaCh.hasListeners [Val.str e] _)⟩
    · subst hT
      exact ⟨rfl, hcore1, hext1⟩

theorem onOp_live (metaEnv : MetaEnv) (s : EmState) (e : String) (c : Callable)
    (h : s.isDestroyed = false) :
    ∃ t, EventEmitter.onOp metaEnv s e c = Except.ok (t, ⟨e, c.id⟩) := by
  simp only [EventEmitter.onOp, h, Bool.false_eq_true, if_false]
  exact ⟨_, rfl⟩

theorem removeListener_destroyed (metaEnv : MetaEnv) (s : EmState) (e : String) (tid : Nat)
    (h : s.isDestroyed = true) :
    EventEmitter.removeListener metaEnv s e tid = s := by
  simp [EventEmitter.removeListener, h]

theorem regCore_removeListener (metaEnv : MetaEnv) (s : EmState) (e : String) (tid : Nat) :
    RegCore s (EventEmitter.removeListener metaEnv s e tid) := by
  unfold EventEmitter.removeListener
  split
  · exact regCore_refl s
  · split
    · exact regCore_refl s
    · split
      · split
        · exact regCore_trans (regCore_refl _)
            (metaOnly_emitInternal metaEnv MetaCh.noListeners [Val.str e]
              { s with events := deleteEv s.events e }).1
        · exact regCore_refl _
      · exact regCore_refl s

theorem traceExt_removeListener (metaEnv : MetaEnv) (s : EmState) (e : String) (tid : Nat) :
    TraceExt s (EventEmitter.removeListener metaEnv s e tid) := by
  unfold EventEmitter.removeListener
  split
  · exact traceExt_refl s
  · split
    · exact traceExt_refl s
    · split
      · split
        · exact traceExt_trans ⟨[], by simp⟩
            (traceExt_emitInternal metaEnv MetaCh.noListeners [Val.str e]
              { s with events := deleteEv s.events e })
        · exact ⟨[], by simp⟩
      · exact traceExt_refl s

theorem clearEventListeners_destroyed (metaEnv : MetaEnv) (s : EmState) (e : String)
    (h : s.isDestroyed = true) :
    EventEmitter.clearEventListeners metaEnv s e = s := by
  simp [EventEmitter.clearEventListeners, h]

theorem regCore_clearEventListeners (metaEnv : MetaEnv) (s : EmState) (e : String) :
    RegCore s (EventEmitter.clearEventListeners metaEnv s e) := by
  unfold EventEmitter.clearEventListeners
  split
  · exact regCore_refl s
  · split
    · exact regCore_refl s
    · split
      · exact regCore_trans (regCore_refl _)
          (metaOnly_emitInternal metaEnv MetaCh.noListeners [Val.str e]
            { s with events := deleteEv s.events e }).1
      · exact regCore_refl s

theorem traceExt_clearEventListeners (metaEnv : MetaEnv) (s : EmState) (e : String) :
    TraceExt s (EventEmitter.clearEventListeners metaEnv s e) := by
  unfold EventEmitter.clearEventListeners
  split
  · exact traceExt_refl s
  · split
    · exact traceExt_refl s
    · split
      · exact traceExt_trans ⟨[], by simp⟩
          (traceExt_emitInternal metaEnv MetaCh.noListeners [Val.str e]
            { s with events := deleteEv s.events e })
      · exact traceExt_refl s

/-! ### Invocation traces -/

theorem invokesOf_append (l1 l2 : List TraceEv) :
    invokesOf (l1 ++ l2) = invokesOf l1 ++ invokesOf l2 := by
  induction l1 with
  | nil => rfl
  | cons x l ih => cases x <;> simp [invokesOf, ih]

theorem invokesOf_guardedTrace (metaEnv : MetaEnv) (logE : Bool) (ch : MetaCh)
    (args : List Val) (q : List Nat) :
    invokesOf (guardedTrace metaEnv logE ch args q) = [] := by
  induction q with
  | nil => rfl
  | cons mid rest ih =>
    cases hm : metaEnv mid with
    | none => simp [guardedTrace, hm, invokesOf, invokesOf_append, ih]
    | some err =>
      cases logE <;> simp [guardedTrace, hm, invokesOf, invokesOf_append, ih]

theorem invokesOf_errorReportTrace (metaEnv : MetaEnv) (logE : Bool) (args : List Val)
    (q : List Nat) : invokesOf (errorReportTrace metaEnv logE args q) = [] :=
  invokesOf_guardedTrace metaEnv logE MetaCh.listenerError args q

theorem invokesOf_lifecycleTrace (metaEnv : MetaEnv) (logE : Bool) (ch : MetaCh)
    (args : List Val) (errQ : List Nat) (q : List Nat) :
    invokesOf (lifecycleTrace metaEnv logE ch args errQ q) = [] := by
  induction q with
  | nil => rfl
  | cons mid rest ih =>
    cases hm : metaEnv mid with
    | none => simp [lifecycleTrace, hm, invokesOf, invokesOf_append, ih]
    | some err =>
      simp [lifecycleTrace, hm, invokesOf, invokesOf_append, ih,
        invokesOf_errorReportTrace]

theorem invokes_emitInternal (metaEnv : MetaEnv) (ch : MetaCh) (args : List Val)
    (s : EmState) :
    invokesOf (EventEmitter.emitInternal metaEnv ch args s).trace = invokesOf s.trace := by
  cases ch with
  | listenerError =>
    rw [emitInternal_err_eq, reportError_eq]
    simp [invokesOf_append, invokesOf_errorReportTrace]
  | hasListeners =>
    rcases Bool.dichotomy s.isReportingError with h | h
    · rw [emitInternal_lifecycle_eq metaEnv _ args s (by simp) h]
      simp [invokesOf_append, invokesOf_lifecycleTrace]
    · rw [emitInternal_lifecycle_eq_true metaEnv _ args s (by simp) h]
      simp [invokesOf_append, invokesOf_guardedTrace]
  | noListeners =>
    rcases Bool.dichotomy s.isReportingError with h | h
    · rw [emitInternal_lifecycle_eq metaEnv _ args s (by simp) h]
      simp [invokesOf_append, invokesOf_lifecycleTrace]
    · rw [emitInternal_lifecycle_eq_true metaEnv _ args s (by simp) h]
      simp [invokesOf_append, invokesOf_guardedTrace]

theorem invokes_reportError (metaEnv : MetaEnv) (args : List Val) (s : EmState) :
    invokesOf (EventEmitter.reportError metaEnv args s).trace = invokesOf s.trace := by
  rw [reportError_eq]
  simp [invokesOf_append, invokesOf_errorReportTrace]

theorem invokes_onOp (metaEnv : MetaEnv) (s : EmState) (e : String) (c : Callable)
    (t : EmState) (u : Unsub)
    (h : EventEmitter.onOp metaEnv s e c = Except.ok (t, u)) :
    invokesOf t.trace = invokesOf s.trace := by
  by_cases hd : s.isDestroyed = true
  · simp [EventEmitter.onOp, hd] at h
  · rw [Bool.not_eq_true] at hd
    unfold EventEmitter.onOp at h
    rw [if_neg (by simp [hd])] at h
    simp only [Except.ok.injEq, Prod.mk.injEq] at h
    obtain ⟨hT, _⟩ := h
    split at hT
    · subst hT
      rw [invokes_emitInternal]
    · subst hT
      rfl

theorem invokes_removeListener (metaEnv : MetaEnv) (s : EmState) (e : String) (tid : Nat) :
    invokesOf (EventEmitter.removeListener metaEnv s e tid).trace = invokesOf s.trace := by
  unfold EventEmitter.removeListener
  split
  · rfl
  · split
    · rfl
    · split
      · split
        · rw [invokes_emitInternal]
        · rfl
      · rfl

theorem invokes_clearEventListeners (metaEnv : MetaEnv) (s : EmState) (e : String) :
    invokesOf (EventEmitter.clearEventListeners metaEnv s e).trace = invokesOf s.trace := by
  unfold EventEmitter.clearEventListeners
  split
  · rfl
  · split
    · rfl
    · split
      · rw [invokes_emitInternal]
      · rfl

theorem invokes_runActs (metaEnv : MetaEnv) (acts : List LAct) (s : EmState) :
    invokesOf (EventEmitter.runActs metaEnv acts s).1.trace = invokesOf s.trace := by
  induction acts generalizing s with
  | nil => rfl
  | cons a rest ih =>
    cases a with
    | actThrow v => rfl
    | actOn e lid =>
      simp only [EventEmitter.runActs]
      cases ho : EventEmitter.onOp metaEnv s e ⟨lid, CallKind.plain⟩ with
      | ok p =>
        rw [ih p.1]
        exact invokes_onOp metaEnv s e _ p.1 p.2 (by rw [ho])
      | error m => rfl
    | actOnce e oid wid =>
      simp only [EventEmitter.runActs, EventEmitter.once]
      cases ho : EventEmitter.onOp metaEnv s e ⟨wid, CallKind.onceWrap e oid⟩ with
      | ok p =>
        rw [ih p.1]
        exact invokes_onOp metaEnv s e _ p.1 p.2 (by rw [ho])
      | error m => rfl
    | actOff e lid =>
      simp only [EventEmitter.runActs]
      rw [ih, invokes_removeListener]
    | actClearEvent e =>
      simp only [EventEmitter.runActs]
      rw [ih, invokes_clearEventListeners]

theorem invokes_cleanupWaiter (metaEnv : MetaEnv) (evl : List String) (hasTimer : Bool)
    (wid : Nat) (s : EmState) :
    invokesOf (EventEmitter.cleanupWaiter metaEnv evl hasTimer wid s).trace =
      invokesOf s.trace := by
  unfold EventEmitter.cleanupWaiter
  have hstep : ∀ (st : EmState) (e : String),
      invokesOf (EventEmitter.removeListener metaEnv st e wid).trace = invokesOf st.trace :=
    fun st e => invokes_removeListener metaEnv st e wid
  have hbase : invokesOf
      (if hasTimer then { s with trace := s.trace ++ [TraceEv.timerCancel] } else s).trace =
      invokesOf s.trace := by
    cases hasTimer <;> simp [invokesOf_append, invokesOf]
  exact (pres_foldl (fun st => invokesOf st.trace = invokesOf s.trace) _
    (fun st e hst => by dsimp only at hst ⊢; rw [hstep st e]; exact hst) evl _ hbase)

theorem invokes_runCallable (env : LEnv) (metaEnv : MetaEnv) (s : EmState) (c : Callable)
    (ev : String) (args : List Val) :
    invokesOf (EventEmitter.runCallable env metaEnv s c ev args).1.trace =
      invokesOf s.trace ++ invokeTriples c ev args := by
  rcases c with ⟨cid, ck⟩
  cases ck with
  | plain =>
    simp only [EventEmitter.runCallable, invokeTriples]
    rw [invokes_runActs]
    simp [invokesOf_append, invokesOf]
  | onceWrap regEv origId =>
    simp only [EventEmitter.runCallable, invokeTriples]
    rw [invokes_runActs]
    simp only [invokesOf_append, invokesOf]
    rw [invokes_removeListener]
    simp [invokesOf_append, invokesOf]
  | waiter evl hasTimer =>
    simp only [EventEmitter.runCallable, invokeTriples]
    simp only [invokesOf_append, invokesOf]
    rw [invokes_cleanupWaiter]
    simp [invokesOf_append, invokesOf]

theorem invokes_runQueue (env : LEnv) (metaEnv : MetaEnv) (ev : String) (args : List Val)
    (q : List Callable) (s : EmState) :
    invokesOf (EventEmitter.runQueue env metaEnv ev args q s).trace =
      invokesOf s.trace ++ joinMap (fun c => invokeTriples c ev args) q := by
  induction q generalizing s with
  | nil => simp [EventEmitter.runQueue, joinMap]
  | cons c rest ih =>
    simp only [EventEmitter.runQueue, joinMap]
    cases hr : EventEmitter.runCallable env metaEnv s c ev args with
    | mk s1 thrown =>
      have h1 : invokesOf s1.trace = invokesOf s.trace ++ invokeTriples c ev args := by
        have := invokes_runCallable env metaEnv s c ev args
        rw [hr] at this
        exact this
      cases thrown with
      | none =>
        rw [ih s1, h1, List.append_assoc]
      | some err =>
        rw [ih]
        have h2 : invokesOf (EventEmitter.reportError metaEnv
            ([err, Val.str ev] ++ args) s1).trace = invokesOf s1.trace :=
          invokes_reportError metaEnv _ s1
        by_cases hlg : (EventEmitter.reportError metaEnv
            ([err, Val.str ev] ++ args) s1).logErrors = true
        · rw [if_pos hlg]
          simp only [invokesOf_append, invokesOf]
          rw [h2, h1, List.append_assoc]
          simp [invokesOf_append, invokesOf]
        · rw [if_neg hlg]
          rw [h2, h1, List.append_assoc]

theorem invokes_emit (env : LEnv) (metaEnv : MetaEnv) (s : EmState) (ev : String)
    (args : List Val) (h : s.isDestroyed = false) :
    invokesOf (EventEmitter.emit env metaEnv s ev args).trace =
      invokesOf s.trace ++
        joinMap (fun c => invokeTriples c ev args) ((getEv s ev).getD []) := by
  unfold EventEmitter.emit
  rw [if_neg (by simp [h])]
  cases hf : findEv s.events ev with
  | none => simp [getEv, hf, joinMap]
  | some l =>
    rw [invokes_runQueue]
    simp [getEv, hf]

/-! ### Field preservation through dispatch -/

theorem regCore_reportError (metaEnv : MetaEnv) (args : List Val) (s : EmState) :
    RegCore s (EventEmitter.reportError metaEnv args s) := by
  rw [reportError_eq]
  exact regCore_refl s |>.imp id id |>.imp id id |>.imp id id

theorem traceExt_reportError (metaEnv : MetaEnv) (args : List Val) (s : EmState) :
    TraceExt s (EventEmitter.reportError metaEnv args s) := by
  rw [reportError_eq]
  exact ⟨_, rfl⟩

theorem regCore_runActs (metaEnv : MetaEnv) (acts : List LAct) (s : EmState) :
    RegCore s (EventEmitter.runActs metaEnv acts s).1 := by
  induction acts generalizing s with
  | nil => exact regCore_refl s
  | cons a rest ih =>
    cases a with
    | actThrow v => exact regCore_refl s
    | actOn e lid =>
      simp only [EventEmitter.runActs]
      cases ho : EventEmitter.onOp metaEnv s e ⟨lid, CallKind.plain⟩ with
      | ok p =>
        exact regCore_trans (onOp_ok metaEnv s e _ p.1 p.2 (by rw [ho])).2.2.2.1 (ih p.1)
      | error m => exact regCore_refl s
    | actOnce e oid wid =>
      simp only [EventEmitter.runActs, EventEmitter.once]
      cases ho : EventEmitter.onOp metaEnv s e ⟨wid, CallKind.onceWrap e oid⟩ with
      | ok p =>
        exact regCore_trans (onOp_ok metaEnv s e _ p.1 p.2 (by rw [ho])).2.2.2.1 (ih p.1)
      | error m => exact regCore_refl s
    | actOff e lid =>
      simp only [EventEmitter.runActs]
      exact regCore_trans (regCore_removeListener metaEnv s e lid) (ih _)
    | actClearEvent e =>
      simp only [EventEmitter.runActs]
      exact regCore_trans (regCore_clearEventListeners metaEnv s e) (ih _)

theorem traceExt_runActs (metaEnv : MetaEnv) (acts : List LAct) (s : EmState) :
    TraceExt s (EventEmitter.runActs metaEnv acts s).1 := by
  induction acts generalizing s with
  | nil => exact traceExt_refl s
  | cons a rest ih =>
    cases a with
    | actThrow v => exact traceExt_refl s
    | actOn e lid =>
      simp only [EventEmitter.runActs]
      cases ho : EventEmitter.onOp metaEnv s e ⟨lid, CallKind.plain⟩ with
      | ok p =>
        exact traceExt_trans (onOp_ok metaEnv s e _ p.1 p.2 (by rw [ho])).2.2.2.2 (ih p.1)
      | error m => exact traceExt_refl s
    | actOnce e oid wid =>
      simp only [EventEmitter.runActs, EventEmitter.once]
      cases ho : EventEmitter.onOp metaEnv s e ⟨wid, CallKind.onceWrap e oid⟩ with
      | ok p =>
        exact traceExt_trans (onOp_ok metaEnv s e _ p.1 p.2 (by rw [ho])).2.2.2.2 (ih p.1)
      | error m => exact traceExt_refl s
    | actOff e lid =>
      simp only [EventEmitter.runActs]
      exact traceExt_trans (traceExt_removeListener metaEnv s e lid) (ih _)
    | actClearEvent e =>
      simp only [EventEmitter.runActs]
      exact traceExt_trans (traceExt_clearEventListeners metaEnv s e) (ih _)

theorem regCore_cleanupWaiter (metaEnv : MetaEnv) (evl : List String) (hasTimer : Bool)
    (wid : Nat) (s : EmState) :
    RegCore s (EventEmitter.cleanupWaiter metaEnv evl hasTimer wid s) := by
  unfold EventEmitter.cleanupWaiter
  refine regCore_trans (t := if hasTimer then
      { s with trace := s.trace ++ [TraceEv.timerCancel] } else s) ?_ ?_
  · cases hasTimer <;> exact regCore_refl _
  · exact regCore_foldl _ (fun st e => regCore_removeListener metaEnv st e wid) evl _

theorem traceExt_cleanupWaiter (metaEnv : MetaEnv) (evl : List String) (hasTimer : Bool)
    (wid : Nat) (s : EmState) :
    TraceExt s (EventEmitter.cleanupWaiter metaEnv evl hasTimer wid s) := by
  unfold EventEmitter.cleanupWaiter
  refine traceExt_trans (t := if hasTimer then
      { s with trace := s.trace ++ [TraceEv.timerCancel] } else s) ?_ ?_
  · cases hasTimer
    · exact traceExt_refl _
    · exact ⟨_, rfl⟩
  · exact traceExt_foldl _ (fun st e => traceExt_removeListener metaEnv st e wid) evl _

theorem regCore_runCallable (env : LEnv) (metaEnv : MetaEnv) (s : EmState) (c : Callable)
    (ev : String) (args : List Val) :
    RegCore s (EventEmitter.runCallable env metaEnv s c ev args).1 := by
  rcases c with ⟨cid, ck⟩
  cases ck with
  | plain =>
    simp only [EventEmitter.runCallable]
    exact regCore_trans (regCore_refl _) (regCore_runActs metaEnv _ _)
  | onceWrap regEv origId =>
    simp only [EventEmitter.runCallable]
    refine regCore_trans (t := EventEmitter.removeListener metaEnv
      { s with trace := s.trace ++ [TraceEv.invoke cid ev args] } regEv cid) ?_ ?_
    · exact regCore_trans (regCore_refl _) (regCore_removeListener metaEnv _ regEv cid)
    · exact regCore_trans (regCore_refl _) (regCore_runActs metaEnv _ _)
  | waiter evl hasTimer =>
    simp only [EventEmitter.runCallable]
    refine regCore_trans (t := EventEmitter.cleanupWaiter metaEnv evl hasTimer cid
        { s with trace := s.trace ++ [TraceEv.invoke cid ev args] }) ?_ ?_
    · exact regCore_trans (regCore_refl _) (regCore_cleanupWaiter metaEnv evl hasTimer cid _)
    · exact ⟨rfl, rfl, rfl, rfl, rfl, rfl⟩

theorem traceExt_runCallable (env : LEnv) (metaEnv : MetaEnv) (s : EmState) (c : Callable)
    (ev : String) (args : List Val) :
    TraceExt s (EventEmitter.runCallable env metaEnv s c ev args).1 := by
  rcases c with ⟨cid, ck⟩
  cases ck with
  | plain =>
    simp only [EventEmitter.runCallable]
    exact traceExt_trans ⟨_, rfl⟩ (traceExt_runActs metaEnv _ _)
  | onceWrap regEv origId =>
    simp only [EventEmitter.runCallable]
    refine traceExt_trans (t := EventEmitter.removeListener metaEnv
      { s with trace := s.trace ++ [TraceEv.invoke cid ev args] } regEv cid) ?_ ?_
    · exact traceExt_trans ⟨_, rfl⟩ (traceExt_removeListener metaEnv _ regEv cid)
    · refine traceExt_trans (t := { EventEmitter.removeListener metaEnv
        { s with trace := s.trace ++ [TraceEv.invoke cid ev args] } regEv cid with
          trace := (EventEmitter.removeListener metaEnv
            { s with trace := s.trace ++ [TraceEv.invoke cid ev args] } regEv cid).trace ++
            [TraceEv.invoke origId ev args] }) ⟨_, rfl⟩ (traceExt_runActs metaEnv _ _)
  | waiter evl hasTimer =>
    simp only [EventEmitter.runCallable]
    refine traceExt_trans (t := EventEmitter.cleanupWaiter metaEnv evl hasTimer cid
        { s with trace := s.trace ++ [TraceEv.invoke cid ev args] }) ?_ ⟨_, rfl⟩
    exact traceExt_trans ⟨_, rfl⟩ (traceExt_cleanupWaiter metaEnv evl hasTimer cid _)

theorem regCore_runQueue (env : LEnv) (metaEnv : MetaEnv) (ev : String) (args : List Val)
    (q : List Callable) (s : EmState) :
    RegCore s (EventEmitter.runQueue env metaEnv ev args q s) := by
  induction q generalizing s with
  | nil => exact regCore_refl s
  | cons c rest ih =>
    simp only [EventEmitter.runQueue]
    cases hr : EventEmitter.runCallable env metaEnv s c ev args with
    | mk s1 thrown =>
      have h1 : RegCore s s1 := by
        have := regCore_runCallable env metaEnv s c ev args
        rw [hr] at this
        exact this
      cases thrown with
      | none => exact regCore_trans h1 (ih s1)
      | some err =>
        refine regCore_trans h1 (regCore_trans
          (regCore_reportError metaEnv ([err, Val.str ev] ++ args) s1)
          (regCore_trans ?_ (ih _)))
        split
        · exact regCore_refl _
        · exact regCore_refl _

theorem traceExt_runQueue (env : LEnv) (metaEnv : MetaEnv) (ev : String) (args : List Val)
    (q : List Callable) (s : EmState) :
    TraceExt s (EventEmitter.runQueue env metaEnv ev args q s) := by
  induction q generalizing s with
  | nil => exact traceExt_refl s
  | cons c rest ih =>
    simp only [EventEmitter.runQueue]
    cases hr : EventEmitter.runCallable env metaEnv s c ev args with
    | mk s1 thrown =>
      have h1 : TraceExt s s1 := by
        have := traceExt_runCallable env metaEnv s c ev args
        rw [hr] at this
        exact this
      cases thrown with
      | none => exact traceExt_trans h1 (ih s1)
      | some err =>
        refine traceExt_trans h1 (traceExt_trans
          (traceExt_reportError metaEnv ([err, Val.str ev] ++ args) s1)
          (traceExt_trans ?_ (ih _)))
        split
        · exact ⟨_, rfl⟩
        · exact traceExt_refl _

theorem regCore_emit (env : LEnv) (metaEnv : MetaEnv) (s : EmState) (ev : String)
    (args : List Val) : RegCore s (EventEmitter.emit env metaEnv s ev args) := by
  unfold EventEmitter.emit
  split
  · exact regCore_refl s
  · split
    · exact regCore_refl s
    · exact regCore_runQueue env metaEnv ev args _ s

theorem traceExt_emit (env : LEnv) (metaEnv : MetaEnv) (s : EmState) (ev : String)
    (args : List Val) : TraceExt s (EventEmitter.emit env metaEnv s ev args) := by
  unfold EventEmitter.emit
  split
  · exact traceExt_refl s
  · split
    · exact traceExt_refl s
    · exact traceExt_runQueue env metaEnv ev args _ s

/-! ### The non-emptiness invariant of the registry -/

theorem pushEv_wf (e : String) (c : Callable) :
    ∀ (evs : List (String × List Callable)), (∀ p ∈ evs, p.2 ≠ []) →
      ∀ p ∈ pushEv evs e c, p.2 ≠ [] := by
  intro evs
  induction evs with
  | nil =>
    intro _ p hp
    simp only [pushEv, List.mem_singleton] at hp
    subst hp
    simp
  | cons kv rest ih =>
    rcases kv with ⟨k, l⟩
    intro h p hp
    simp only [pushEv] at hp
    by_cases hk : (k == e) = true
    · rw [if_pos hk] at hp
      rcases List.mem_cons.1 hp with hp | hp
      · subst hp
        simp
      · exact h p (List.mem_cons_of_mem _ hp)
    · rw [if_neg hk] at hp
      rcases List.mem_cons.1 hp with hp | hp
      · subst hp
        exact h (k, l) (List.mem_cons_self _ _)
      · exact ih (fun q hq => h q (List.mem_cons_of_mem _ hq)) p hp

theorem deleteEv_wf (e : String) :
    ∀ (evs : List (String × List Callable)), (∀ p ∈ evs, p.2 ≠ []) →
      ∀ p ∈ deleteEv evs e, p.2 ≠ [] := by
  intro evs
  induction evs with
  | nil => intro _ p hp; simp [deleteEv] at hp
  | cons kv rest ih =>
    rcases kv with ⟨k, l⟩
    intro h p hp
    simp only [deleteEv] at hp
    by_cases hk : (k == e) = true
    · rw [if_pos hk] at hp
      exact h p (List.mem_cons_of_mem _ hp)
    · rw [if_neg hk] at hp
      rcases List.mem_cons.1 hp with hp | hp
      · subst hp
        exact h (k, l) (List.mem_cons_self _ _)
      · exact ih (fun q hq => h q (List.mem_cons_of_mem _ hq)) p hp

theorem updEv_wf (e : String) (nl : List Callable) (hnl : nl ≠ []) :
    ∀ (evs : List (String × List Callable)), (∀ p ∈ evs, p.2 ≠ []) →
      ∀ p ∈ updEv evs e nl, p.2 ≠ [] := by
  intro evs
  induction evs with
  | nil => intro _ p hp; simp [updEv] at hp
  | cons kv rest ih =>
    rcases kv with ⟨k, l⟩
    intro h p hp
    simp only [updEv] at hp
    by_cases hk : (k == e) = true
    · rw [if_pos hk] at hp
      rcases List.mem_cons.1 hp with hp | hp
      · subst hp
        exact hnl
      · exact h p (List.mem_cons_of_mem _ hp)
    · rw [if_neg hk] at hp
      rcases List.mem_cons.1 hp with hp | hp
      · subst hp
        exact h (k, l) (List.mem_cons_self _ _)
      · exact ih (fun q hq => h q (List.mem_cons_of_mem _ hq)) p hp

theorem wf_trace_irrelevant {s : EmState} {t : EmState} (hev : t.events = s.events)
    (h : EmWF s) : EmWF t := by
  intro p hp
  rw [hev] at hp
  exact h p hp

theorem wf_onOp (metaEnv : MetaEnv) (s : EmState) (e : String) (c : Callable)
    (t : EmState) (u : Unsub) (h : EventEmitter.onOp metaEnv s e c = Except.ok (t, u))
    (hwf : EmWF s) : EmWF t := by
  obtain ⟨-, -, hev, -, -⟩ := onOp_ok metaEnv s e c t u h
  intro p hp
  rw [hev] at hp
  exact pushEv_wf e c s.events hwf p hp

theorem wf_removeListener (metaEnv : MetaEnv) (s : EmState) (e : String) (tid : Nat)
    (hwf : EmWF s) : EmWF (EventEmitter.removeListener metaEnv s e tid) := by
  unfold EventEmitter.removeListener
  split
  · exact hwf
  · split
    · exact hwf
    · split
      · split
        · have hmid : EmWF { s with events := deleteEv s.events e } :=
            fun p hp => deleteEv_wf e s.events hwf p hp
          exact wf_trace_irrelevant (metaOnly_emitInternal metaEnv MetaCh.noListeners
            [Val.str e] { s with events := deleteEv s.events e }).2 hmid
        · rename_i hne
          refine wf_trace_irrelevant rfl ?_
          intro p hp
          refine updEv_wf e _ ?_ s.events hwf p hp
          intro hcon
          rw [hcon] at hne
          simp at hne
      · exact hwf

theorem wf_clearEventListeners (metaEnv : MetaEnv) (s : EmState) (e : String)
    (hwf : EmWF s) : EmWF (EventEmitter.clearEventListeners metaEnv s e) := by
  unfold EventEmitter.clearEventListeners
  split
  · exact hwf
  · split
    · exact hwf
    · split
      · have hmid : EmWF { s with events := deleteEv s.events e } :=
          fun p hp => deleteEv_wf e s.events hwf p hp
        exact wf_trace_irrelevant (metaOnly_emitInternal metaEnv MetaCh.noListeners
          [Val.str e] { s with events := deleteEv s.events e }).2 hmid
      · exact hwf

theorem wf_runActs (metaEnv : MetaEnv) (acts : List LAct) (s : EmState) (hwf : EmWF s) :
    EmWF (EventEmitter.runActs metaEnv acts s).1 := by
  induction acts generalizing s with
  | nil => exact hwf
  | cons a rest ih =>
    cases a with
    | actThrow v => exact hwf
    | actOn e lid =>
      simp only [EventEmitter.runActs]
      cases ho : EventEmitter.onOp metaEnv s e ⟨lid, CallKind.plain⟩ with
      | ok p => exact ih p.1 (wf_onOp metaEnv s e _ p.1 p.2 (by rw [ho]) hwf)
      | error m => exact hwf
    | actOnce e oid wid =>
      simp only [EventEmitter.runActs, EventEmitter.once]
      cases ho : EventEmitter.onOp metaEnv s e ⟨wid, CallKind.onceWrap e oid⟩ with
      | ok p => exact ih p.1 (wf_onOp metaEnv s e _ p.1 p.2 (by rw [ho]) hwf)
      | error m => exact hwf
    | actOff e lid =>
      simp only [EventEmitter.runActs]
      exact ih _ (wf_removeListener metaEnv s e lid hwf)
    | actClearEvent e =>
      simp only [EventEmitter.runActs]
      exact ih _ (wf_clearEventListeners metaEnv s e hwf)

theorem wf_cleanupWaiter (metaEnv : MetaEnv) (evl : List String) (hasTimer : Bool)
    (wid : Nat) (s : EmState) (hwf : EmWF s) :
    EmWF (EventEmitter.cleanupWaiter metaEnv evl hasTimer wid s) := by
  unfold EventEmitter.cleanupWaiter
  refine pres_foldl EmWF _ (fun st e hst => wf_removeListener metaEnv st e wid hst) evl _ ?_
  cases hasTimer
  · exact hwf
  · exact wf_trace_irrelevant rfl hwf

theorem wf_runCallable (env : LEnv) (metaEnv : MetaEnv) (s : EmState) (c : Callable)
    (ev : String) (args : List Val) (hwf : EmWF s) :
    EmWF (EventEmitter.runCallable env metaEnv s c ev args).1 := by
  rcases c with ⟨cid, ck⟩
  cases ck with
  | plain =>
    simp only [EventEmitter.runCallable]
    exact wf_runActs metaEnv _ _ (wf_trace_irrelevant rfl hwf)
  | onceWrap regEv origId =>
    simp only [EventEmitter.runCallable]
    refine wf_runActs metaEnv _ _ (wf_trace_irrelevant rfl ?_)
    exact wf_removeListener metaEnv _ regEv cid (wf_trace_irrelevant rfl hwf)
  | waiter evl hasTimer =>
    simp only [EventEmitter.runCallable]
    refine wf_trace_irrelevant rfl ?_
    exact wf_cleanupWaiter metaEnv evl hasTimer cid _ (wf_trace_irrelevant rfl hwf)

theorem wf_reportError (metaEnv : MetaEnv) (args : List Val) (s : EmState)
    (hwf : EmWF s) : EmWF (EventEmitter.reportError metaEnv args s) := by
  rw [reportError_eq]
  exact wf_trace_irrelevant rfl hwf

theorem wf_runQueue (env : LEnv) (metaEnv : MetaEnv) (ev : String) (args : List Val)
    (q : List Callable) (s : EmState) (hwf : EmWF s) :
    EmWF (EventEmitter.runQueue env metaEnv ev args q s) := by
  induction q generalizing s with
  | nil => exact hwf
  | cons c rest ih =>
    simp only [EventEmitter.runQueue]
    cases hr : EventEmitter.runCallable env metaEnv s c ev args with
    | mk s1 thrown =>
      have h1 : EmWF s1 := by
        have := wf_runCallable env metaEnv s c ev args hwf
        rw [hr] at this
        exact this
      cases thrown with
      | none => exact ih s1 h1
      | some err =>
        refine ih _ ?_
        have h2 := wf_reportError metaEnv ([err, Val.str ev] ++ args) s1 h1
        split
        · exact wf_trace_irrelevant rfl h2
        · exact h2

theorem wf_emit (env : LEnv) (metaEnv : MetaEnv) (s : EmState) (ev : String)
    (args : List Val) (hwf : EmWF s) : EmWF (EventEmitter.emit env metaEnv s ev args) := by
  unfold EventEmitter.emit
  split
  · exact hwf
  · split
    · exact hwf
    · exact wf_runQueue env metaEnv ev args _ s hwf

theorem wf_clear (metaEnv : MetaEnv) (s : EmState) (hwf : EmWF s) :
    EmWF (EventEmitter.clear metaEnv s) := by
  unfold EventEmitter.clear
  split
  · exact hwf
  · exact pres_foldl EmWF _ (fun st e hst => wf_clearEventListeners metaEnv st e hst) _ _ hwf

theorem wf_destroy (metaEnv : MetaEnv) (s : EmState) (hwf : EmWF s) :
    EmWF (EventEmitter.destroy metaEnv s) := by
  unfold EventEmitter.destroy
  split
  · exact hwf
  · intro p hp
    simp at hp

theorem wf_applyOp (env : LEnv) (metaEnv : MetaEnv) (s : EmState) (op : EventEmitter.Op)
    (hwf : EmWF s) : EmWF (EventEmitter.applyOp env metaEnv s op) := by
  cases op with
  | opOn e lid =>
    simp only [EventEmitter.applyOp]
    cases ho : EventEmitter.onOp metaEnv s e ⟨lid, CallKind.plain⟩ with
    | ok p => exact wf_onOp metaEnv s e _ p.1 p.2 (by rw [ho]) hwf
    | error m => exact hwf
  | opOnce e oid wid =>
    simp only [EventEmitter.applyOp, EventEmitter.once]
    cases ho : EventEmitter.onOp metaEnv s e ⟨wid, CallKind.onceWrap e oid⟩ with
    | ok p => exact wf_onOp metaEnv s e _ p.1 p.2 (by rw [ho]) hwf
    | error m => exact hwf
  | opOff e lid => exact wf_removeListener metaEnv s e lid hwf
  | opEmit e args => exact wf_emit env metaEnv s e args hwf
  | opClearEvent e => exact wf_clearEventListeners metaEnv s e hwf
  | opClear => exact wf_clear metaEnv s hwf
  | opDestroy => exact wf_destroy metaEnv s hwf

theorem wf_replay (env : LEnv) (metaEnv : MetaEnv) (ops : List EventEmitter.Op)
    (s : EmState) (hwf : EmWF s) : EmWF (EventEmitter.replay env metaEnv ops s) :=
  pres_foldl EmWF _ (fun st op hst => wf_applyOp env metaEnv st op hst) ops s hwf

theorem findEv_mem :
    ∀ (evs : List (String × List Callable)) (e : String) (l : List Callable),
      findEv evs e = some l → (e, l) ∈ evs := by
  intro evs
  induction evs with
  | nil => intro e l h; simp [findEv] at h
  | cons kv rest ih =>
    rcases kv with ⟨k, l0⟩
    intro e l h
    simp only [findEv] at h
    by_cases hk : (k == e) = true
    · rw [if_pos hk] at h
      rw [Option.some.injEq] at h
      subst h
      have hk2 : k = e := eq_of_beq hk
      subst hk2
      exact List.mem_cons_self _ _
    · rw [if_neg hk] at h
      exact List.mem_cons_of_mem _ (ih e l h)

theorem wf_absent_iff (s : EmState) (e : String) (hwf : EmWF s) :
    getEv s e = none ↔ countEv s e = 0 := by
  constructor
  · intro h
    simp [countEv, h]
  · intro h
    cases hf : getEv s e with
    | none => rfl
    | some l =>
      exfalso
      have hl : l ≠ [] := hwf (e, l) (findEv_mem s.events e l hf)
      rw [countEv, hf] at h
      simp only [Option.getD_some] at h
      exact hl (List.length_eq_zero.1 h)

/-! ### Counting meta-channel notifications -/

theorem count_guardedTrace_same (metaEnv : MetaEnv) (logE : Bool) (ch : MetaCh)
    (args : List Val) (mid : Nat) (q : List Nat) :
    List.count (TraceEv.meta mid ch args) (guardedTrace metaEnv logE ch args q) =
      q.count mid := by
  induction q with
  | nil => rfl
  | cons m rest ih =>
    cases hm : metaEnv m with
    | none =>
      simp only [guardedTrace, hm, List.nil_append, List.count_cons, ih, List.count_cons]
      simp [TraceEv.meta.injEq, BEq.beq]
    | some err =>
      cases logE with
      | false =>
        simp only [guardedTrace, hm, if_false, Bool.false_eq_true, List.nil_append,
          List.count_cons, ih]
        simp [TraceEv.meta.injEq, BEq.beq]
      | true =>
        simp only [guardedTrace, hm, if_true, List.count_cons, List.singleton_append,
          List.count_cons, ih]
        simp [TraceEv.meta.injEq, BEq.beq]

theorem count_guardedTrace_other (metaEnv : MetaEnv) (logE : Bool) (ch chq : MetaCh)
    (args argsq : List Val) (mid : Nat) (q : List Nat) (hch : ch ≠ chq) :
    List.count (TraceEv.meta mid ch args) (guardedTrace metaEnv logE chq argsq q) = 0 := by
  induction q with
  | nil => rfl
  | cons m rest ih =>
    cases hm : metaEnv m with
    | none =>
      simp only [guardedTrace, hm, List.nil_append, List.count_cons, ih]
      simp [TraceEv.meta.injEq, BEq.beq]
      exact fun _ h2 => (hch h2.symm).elim
    | some err =>
      cases logE with
      | false =>
        simp only [guardedTrace, hm, if_false, Bool.false_eq_true, List.nil_append,
          List.count_cons, ih]
        simp [TraceEv.meta.injEq, BEq.beq]
        exact fun _ h2 => (hch h2.symm).elim
      | true =>
        simp only [guardedTrace, hm, if_true, List.count_cons, List.singleton_append,
          List.count_cons, ih]
        simp [TraceEv.meta.injEq, BEq.beq]
        exact fun _ h2 => (hch h2.symm).elim

theorem count_lifecycleTrace (metaEnv : MetaEnv) (logE : Bool) (ch : MetaCh)
    (args : List Val) (errQ : List Nat) (mid : Nat) (q : List Nat)
    (hch : ch ≠ MetaCh.listenerError) :
    List.count (TraceEv.meta mid ch args) (lifecycleTrace metaEnv logE ch args errQ q) =
      q.count mid := by
  induction q with
  | nil => rfl
  | cons m rest ih =>
    cases hm : metaEnv m with
    | none =>
      simp only [lifecycleTrace, hm, List.nil_append, List.count_cons, ih]
      simp [TraceEv.meta.injEq, BEq.beq]
    | some err =>
      simp only [lifecycleTrace, hm, List.count_cons, List.count_append, ih,
        errorReportTrace, count_guardedTrace_other metaEnv logE ch MetaCh.listenerError
          args _ mid errQ hch]
      simp [TraceEv.meta.injEq, BEq.beq]

theorem count_emitInternal_lifecycle (metaEnv : MetaEnv) (ch : MetaCh) (args : List Val)
    (s : EmState) (mid : Nat) (hch : ch ≠ MetaCh.listenerError) :
    List.count (TraceEv.meta mid ch args)
        (EventEmitter.emitInternal metaEnv ch args s).trace =
      List.count (TraceEv.meta mid ch args) s.trace + (metaList s ch).count mid := by
  rcases Bool.dichotomy s.isReportingError with h | h
  · rw [emitInternal_lifecycle_eq metaEnv ch args s hch h]
    simp [List.count_append, count_lifecycleTrace metaEnv _ ch args _ mid _ hch]
  · rw [emitInternal_lifecycle_eq_true metaEnv ch args s hch h]
    simp [List.count_append, count_guardedTrace_same]

theorem count_emitInternal_err (metaEnv : MetaEnv) (ch : MetaCh) (args argsq : List Val)
    (s : EmState) (mid : Nat) (hch : ch ≠ MetaCh.listenerError) :
    List.count (TraceEv.meta mid ch args)
        (EventEmitter.reportError metaEnv argsq s).trace =
      List.count (TraceEv.meta mid ch args) s.trace := by
  rw [reportError_eq]
  simp [List.count_append, errorReportTrace,
    count_guardedTrace_other metaEnv _ ch MetaCh.listenerError args argsq mid _ hch]

/-! ### Delivery and shape of reported errors -/

theorem mem_guardedTrace (metaEnv : MetaEnv) (logE : Bool) (ch : MetaCh) (args : List Val)
    (mid : Nat) (q : List Nat) (h : mid ∈ q) :
    TraceEv.meta mid ch args ∈ guardedTrace metaEnv logE ch args q := by
  induction q with
  | nil => simp at h
  | cons m rest ih =>
    rcases List.mem_cons.1 h with h | h
    · subst h
      simp [guardedTrace]
    · cases hm : metaEnv m with
      | none =>
        simp only [guardedTrace, hm, List.nil_append]
        exact List.mem_cons_of_mem _ (ih h)
      | some err =>
        simp only [guardedTrace, hm]
        exact List.mem_cons_of_mem _ (List.mem_append_right _ (ih h))

theorem reportError_delivers (metaEnv : MetaEnv) (args : List Val) (s : EmState)
    (mid : Nat) (h : mid ∈ s.errL) :
    TraceEv.meta mid MetaCh.listenerError args ∈
      (EventEmitter.reportError metaEnv args s).trace := by
  rw [reportError_eq]
  exact List.mem_append_right _
    (mem_guardedTrace metaEnv s.logErrors MetaCh.listenerError args mid s.errL h)

theorem eraseMatch_length (tid : Nat) :
    ∀ (l : List Callable), l.any (fun c => matchesListener c tid) = true →
      (eraseMatch l tid).length + 1 = l.length := by
  intro l
  induction l with
  | nil => intro h; simp at h
  | cons c rest ih =>
    intro h
    by_cases hc : matchesListener c tid = true
    · simp [eraseMatch, hc]
    · have hr : rest.any (fun c => matchesListener c tid) = true := by
        rcases List.any_eq_true.1 h with ⟨x, hx, hpx⟩
        rcases List.mem_cons.1 hx with hx | hx
        · subst hx; exact absurd hpx hc
        · exact List.any_eq_true.2 ⟨x, hx, hpx⟩
      simp only [eraseMatch, hc, if_false, Bool.false_eq_true, List.length_cons]
      rw [← ih hr]

theorem guardedTrace_shape (metaEnv : MetaEnv) (logE : Bool) (ch : MetaCh)
    (args : List Val) (q : List Nat) :
    ∀ x ∈ guardedTrace metaEnv logE ch args q,
      (∃ mid, x = TraceEv.meta mid ch args) ∨ ∃ err, x = TraceEv.logInternal err := by
  induction q with
  | nil => intro x hx; simp [guardedTrace] at hx
  | cons m rest ih =>
    intro x hx
    cases hm : metaEnv m with
    | none =>
      simp only [guardedTrace, hm, List.nil_append] at hx
      rcases List.mem_cons.1 hx with hx | hx
      · exact Or.inl ⟨m, hx⟩
      · exact ih x hx
    | some err =>
      simp only [guardedTrace, hm] at hx
      rcases List.mem_cons.1 hx with hx | hx
      · exact Or.inl ⟨m, hx⟩
      · rcases List.mem_append.1 hx with hx | hx
        · cases logE with
          | false => simp at hx
          | true =>
            simp only [if_true, List.mem_singleton] at hx
            exact Or.inr ⟨err, hx⟩
        · exact ih x hx

theorem lifecycleTrace_shape (metaEnv : MetaEnv) (logE : Bool) (ch : MetaCh)
    (args : List Val) (errQ : List Nat) (q : List Nat) :
    ∀ x ∈ lifecycleTrace metaEnv logE ch args errQ q,
      (∃ mid, x = TraceEv.meta mid ch args) ∨
      (∃ mid a2, x = TraceEv.meta mid MetaCh.listenerError a2) ∨
      ∃ err, x = TraceEv.logInternal err := by
  induction q with
  | nil => intro x hx; simp [lifecycleTrace] at hx
  | cons m rest ih =>
    intro x hx
    cases hm : metaEnv m with
    | none =>
      simp only [lifecycleTrace, hm, List.nil_append] at hx
      rcases List.mem_cons.1 hx with hx | hx
      · exact Or.inl ⟨m, hx⟩
      · exact ih x hx
    | some err =>
      simp only [lifecycleTrace, hm] at hx
      rcases List.mem_cons.1 hx with hx | hx
      · exact Or.inl ⟨m, hx⟩
      · rcases List.mem_append.1 hx with hx | hx
        · rcases guardedTrace_shape metaEnv logE MetaCh.listenerError _ errQ x hx with
            ⟨mid, hmid⟩ | ⟨e2, he2⟩
          · exact Or.inr (Or.inl ⟨mid, _, hmid⟩)
          · exact Or.inr (Or.inr ⟨e2, he2⟩)
        · exact ih x hx

/-! ### Absence of listener-failure logs when logErrors is off -/

theorem nolog_append {l1 l2 : List TraceEv} (h1 : NoLogListener l1)
    (h2 : NoLogListener l2) : NoLogListener (l1 ++ l2) :=
  fun e v hx => (List.mem_append.1 hx).elim (h1 e v) (h2 e v)

theorem nolog_guardedTrace (metaEnv : MetaEnv) (logE : Bool) (ch : MetaCh)
    (args : List Val) (q : List Nat) :
    NoLogListener (guardedTrace metaEnv logE ch args q) := by
  intro e v hx
  rcases guardedTrace_shape metaEnv logE ch args q _ hx with ⟨mid, h⟩ | ⟨err, h⟩ <;>
    simp at h

theorem nolog_lifecycleTrace (metaEnv : MetaEnv) (logE : Bool) (ch : MetaCh)
    (args : List Val) (errQ : List Nat) (q : List Nat) :
    NoLogListener (lifecycleTrace metaEnv logE ch args errQ q) := by
  intro e v hx
  rcases lifecycleTrace_shape metaEnv logE ch args errQ q _ hx with
    ⟨mid, h⟩ | ⟨mid, a2, h⟩ | ⟨err, h⟩ <;> simp at h

theorem nolog_emitInternal (metaEnv : MetaEnv) (ch : MetaCh) (args : List Val)
    (s : EmState) (hn : NoLogListener s.trace) :
    NoLogListener (EventEmitter.emitInternal metaEnv ch args s).trace := by
  cases ch with
  | listenerError =>
    rw [emitInternal_err_eq, reportError_eq]
    exact nolog_append hn (nolog_guardedTrace _ _ _ _ _)
  | hasListeners =>
    rcases Bool.dichotomy s.isReportingError with h | h
    · rw [emitInternal_lifecycle_eq metaEnv _ args s (by simp) h]
      exact nolog_append hn (nolog_lifecycleTrace _ _ _ _ _ _)
    · rw [emitInternal_lifecycle_eq_true metaEnv _ args s (by simp) h]
      exact nolog_append hn (nolog_guardedTrace _ _ _ _ _)
  | noListeners =>
    rcases Bool.dichotomy s.isReportingError with h | h
    · rw [emitInternal_lifecycle_eq metaEnv _ args s (by simp) h]
      exact nolog_append hn (nolog_lifecycleTrace _ _ _ _ _ _)
    · rw [emitInternal_lifecycle_eq_true metaEnv _ args s (by simp) h]
      exact nolog_append hn (nolog_guardedTrace _ _ _ _ _)

theorem nolog_reportError (metaEnv : MetaEnv) (args : List Val) (s : EmState)
    (hn : NoLogListener s.trace) :
    NoLogListener (EventEmitter.reportError metaEnv args s).trace := by
  rw [reportError_eq]
  exact nolog_append hn (nolog_guardedTrace _ _ _ _ _)

theorem nolog_onOp (metaEnv : MetaEnv) (s : EmState) (e : String) (c : Callable)
    (t : EmState) (u : Unsub) (h : EventEmitter.onOp metaEnv s e c = Except.ok (t, u))
    (hn : NoLogListener s.trace) : NoLogListener t.trace := by
  by_cases hd : s.isDestroyed = true
  · simp [EventEmitter.onOp, hd] at h
  · rw [Bool.not_eq_true] at hd
    unfold EventEmitter.onOp at h
    rw [if_neg (by simp [hd])] at h
    simp only [Except.ok.injEq, Prod.mk.injEq] at h
    obtain ⟨hT, _⟩ := h
    split at hT
    · subst hT
      exact nolog_emitInternal metaEnv _ _ _ hn
    · subst hT
      exact hn

theorem nolog_removeListener (metaEnv : MetaEnv) (s : EmState) (e : String) (tid : Nat)
    (hn : NoLogListener s.trace) :
    NoLogListener (EventEmitter.removeListener metaEnv s e tid).trace := by
  unfold EventEmitter.removeListener
  split
  · exact hn
  · split
    · exact hn
    · split
      · split
        · exact nolog_emitInternal metaEnv _ _ _ hn
        · exact hn
      · exact hn

theorem nolog_clearEventListeners (metaEnv : MetaEnv) (s : EmState) (e : String)
    (hn : NoLogListener s.trace) :
    NoLogListener (EventEmitter.clearEventListeners metaEnv s e).trace := by
  unfold EventEmitter.clearEventListeners
  split
  · exact hn
  · split
    · exact hn
    · split
      · exact nolog_emitInternal metaEnv _ _ _ hn
      · exact hn

theorem nolog_runActs (metaEnv : MetaEnv) (acts : List LAct) (s : EmState)
    (hn : NoLogListener s.trace) :
    NoLogListener (EventEmitter.runActs metaEnv acts s).1.trace := by
  induction acts generalizing s with
  | nil => exact hn
  | cons a rest ih =>
    cases a with
    | actThrow v => exact hn
    | actOn e lid =>
      simp only [EventEmitter.runActs]
      cases ho : EventEmitter.onOp metaEnv s e ⟨lid, CallKind.plain⟩ with
      | ok p => exact ih p.1 (nolog_onOp metaEnv s e _ p.1 p.2 (by rw [ho]) hn)
      | error m => exact hn
    | actOnce e oid wid =>
      simp only [EventEmitter.runActs, EventEmitter.once]
      cases ho : EventEmitter.onOp metaEnv s e ⟨wid, CallKind.onceWrap e oid⟩ with
      | ok p => exact ih p.1 (nolog_onOp metaEnv s e _ p.1 p.2 (by rw [ho]) hn)
      | error m => exact hn
    | actOff e lid =>
      simp only [EventEmitter.runActs]
      exact ih _ (nolog_removeListener metaEnv s e lid hn)
    | actClearEvent e =>
      simp only [EventEmitter.runActs]
      exact ih _ (nolog_clearEventListeners metaEnv s e hn)

theorem nolog_cleanupWaiter (metaEnv : MetaEnv) (evl : List String) (hasTimer : Bool)
    (wid : Nat) (s : EmState) (hn : NoLogListener s.trace) :
    NoLogListener (EventEmitter.cleanupWaiter metaEnv evl hasTimer wid s).trace := by
  unfold EventEmitter.cleanupWaiter
  refine pres_foldl (fun st => NoLogListener st.trace) _
    (fun st e hst => nolog_removeListener metaEnv st e wid hst) evl _ ?_
  cases hasTimer
  · exact hn
  · exact nolog_append hn (fun e v hx => by simp at hx)

theorem nolog_runCallable (env : LEnv) (metaEnv : MetaEnv) (s : EmState) (c : Callable)
    (ev : String) (args : List Val) (hn : NoLogListener s.trace) :
    NoLogListener (EventEmitter.runCallable env metaEnv s c ev args).1.trace := by
  rcases c with ⟨cid, ck⟩
  have h0 : NoLogListener (s.trace ++ [TraceEv.invoke cid ev args]) :=
    nolog_append hn (fun e v hx => by simp at hx)
  cases ck with
  | plain =>
    simp only [EventEmitter.runCallable]
    exact nolog_runActs metaEnv _ _ h0
  | onceWrap regEv origId =>
    simp only [EventEmitter.runCallable]
    refine nolog_runActs metaEnv _ _ (nolog_append ?_ (fun e v hx => by simp at hx))
    exact nolog_removeListener metaEnv _ regEv cid h0
  | waiter evl hasTimer =>
    simp only [EventEmitter.runCallable]
    refine nolog_append ?_ (fun e v hx => by simp at hx)
    exact nolog_cleanupWaiter metaEnv evl hasTimer cid _ h0

theorem nolog_runQueue (env : LEnv) (metaEnv : MetaEnv) (ev : String) (args : List Val)
    (q : List Callable) (s : EmState) (hlg : s.logErrors = false)
    (hn : NoLogListener s.trace) :
    NoLogListener (EventEmitter.runQueue env metaEnv ev args q s).trace := by
  induction q generalizing s with
  | nil => exact hn
  | cons c rest ih =>
    simp only [EventEmitter.runQueue]
    cases hr : EventEmitter.runCallable env metaEnv s c ev args with
    | mk s1 thrown =>
      have h1 : NoLogListener s1.trace := by
        have := nolog_runCallable env metaEnv s c ev args hn
        rw [hr] at this
        exact this
      have hlg1 : s1.logErrors = false := by
        have := regCore_runCallable env metaEnv s c ev args
        rw [hr] at this
        rw [this.2.2.2.2.2, hlg]
      cases thrown with
      | none => exact ih s1 hlg1 h1
      | some err =>
        have h2 : NoLogListener (EventEmitter.reportError metaEnv
            (err :: Val.str ev :: args) s1).trace :=
          nolog_reportError metaEnv _ s1 h1
        have hlg2 : (EventEmitter.reportError metaEnv
            (err :: Val.str ev :: args) s1).logErrors = false := by
          rw [(regCore_reportError metaEnv _ s1).2.2.2.2.2, hlg1]
        dsimp only
        rw [if_neg (by simp [hlg2])]
        exact ih _ hlg2 h2

theorem nolog_emit (env : LEnv) (metaEnv : MetaEnv) (s : EmState) (ev : String)
    (args : List Val) (hlg : s.logErrors = false) (hn : NoLogListener s.trace) :
    NoLogListener (EventEmitter.emit env metaEnv s ev args).trace := by
  unfold EventEmitter.emit
  split
  · exact hn
  · split
    · exact hn
    · exact nolog_runQueue env metaEnv ev args _ s hlg hn

/-! ### Destroyed-state behaviour -/

theorem once_destroyed (metaEnv : MetaEnv) (s : EmState) (e : String) (oid wid : Nat)
    (h : s.isDestroyed = true) :
    EventEmitter.once metaEnv s e oid wid = Except.error destroyedMsg :=
  onOp_destroyed metaEnv s e _ h

theorem emit_destroyed (env : LEnv) (metaEnv : MetaEnv) (s : EmState) (ev : String)
    (args : List Val) (h : s.isDestroyed = true) :
    EventEmitter.emit env metaEnv s ev args = s := by
  simp [EventEmitter.emit, h]

theorem onMeta_destroyed (s : EmState) (ch : MetaCh) (mid : Nat)
    (h : s.isDestroyed = true) :
    EventEmitter.onMeta s ch mid = Except.error destroyedMsg := by
  simp [EventEmitter.onMeta, h]

theorem waitForAnyEvent_destroyed (metaEnv : MetaEnv) (s : EmState) (events : List String)
    (m : Int) (wid : Nat) (h : s.isDestroyed = true) :
    EventEmitter.waitForAnyEvent metaEnv s events m wid = Except.error destroyedMsg := by
  simp [EventEmitter.waitForAnyEvent, h]

theorem clear_destroyed (metaEnv : MetaEnv) (s : EmState) (h : s.isDestroyed = true) :
    EventEmitter.clear metaEnv s = s := by
  simp [EventEmitter.clear, h]

theorem destroy_destroyed (metaEnv : MetaEnv) (s : EmState) (h : s.isDestroyed = true) :
    EventEmitter.destroy metaEnv s = s := by
  simp [EventEmitter.destroy, h]

theorem destroy_isDestroyed (metaEnv : MetaEnv) (s : EmState) :
    (EventEmitter.destroy metaEnv s).isDestroyed = true := by
  unfold EventEmitter.destroy
  split
  · assumption
  · rfl

theorem applyOp_destroyed (env : LEnv) (metaEnv : MetaEnv) (s : EmState)
    (op : EventEmitter.Op) (h : s.isDestroyed = true) :
    EventEmitter.applyOp env metaEnv s op = s := by
  cases op with
  | opOn e lid =>
    simp only [EventEmitter.applyOp, onOp_destroyed metaEnv s e _ h]
  | opOnce e oid wid =>
    simp only [EventEmitter.applyOp, once_destroyed metaEnv s e oid wid h]
  | opOff e lid => exact removeListener_destroyed metaEnv s e lid h
  | opEmit e args => exact emit_destroyed env metaEnv s e args h
  | opClearEvent e => exact clearEventListeners_destroyed metaEnv s e h
  | opClear => exact clear_destroyed metaEnv s h
  | opDestroy => exact destroy_destroyed metaEnv s h

theorem replay_destroyed (env : LEnv) (metaEnv : MetaEnv) (ops : List EventEmitter.Op)
    (s : EmState) (h : s.isDestroyed = true) :
    EventEmitter.replay env metaEnv ops s = s := by
  induction ops with
  | nil => rfl
  | cons op rest ih =>
    show EventEmitter.replay env metaEnv rest (EventEmitter.applyOp env metaEnv s op) = s
    rw [applyOp_destroyed env metaEnv s op h]
    exact ih

/-- C3: `destroy` is idempotent and irreversible (replaying any sequence of
public operations on a destroyed emitter leaves it unchanged and destroyed);
after destruction `emit`, `removeListener`/`off`, and `clearEventListeners`
are silent no-ops leaving the state unchanged, while `on`, `once`, the three
meta subscriptions, `waitForEvent`, and `waitForAnyEvent` throw the
destroyed-state error and register nothing (no new state is produced). -/
theorem c3_destroyed_contract (env : LEnv) (metaEnv : MetaEnv) (s : EmState) :
    (EventEmitter.destroy metaEnv (EventEmitter.destroy metaEnv s) =
      EventEmitter.destroy metaEnv s) ∧
    (EventEmitter.destroy metaEnv s).isDestroyed = true ∧
    (∀ ops, s.isDestroyed = true → EventEmitter.replay env metaEnv ops s = s) ∧
    (s.isDestroyed = true →
      (∀ e args, EventEmitter.emit env metaEnv s e args = s) ∧
      (∀ e tid, EventEmitter.removeListener metaEnv s e tid = s) ∧
      (∀ e tid, EventEmitter.off metaEnv s e tid = s) ∧
      (∀ e, EventEmitter.clearEventListeners metaEnv s e = s) ∧
      (∀ e c, EventEmitter.onOp metaEnv s e c = Except.error destroyedMsg) ∧
      (∀ e oid wid, EventEmitter.once metaEnv s e oid wid =
        Except.error destroyedMsg) ∧
      (∀ mid, EventEmitter.onHasEventListeners s mid = Except.error destroyedMsg) ∧
      (∀ mid, EventEmitter.onNoEventListeners s mid = Except.error destroyedMsg) ∧
      (∀ mid, EventEmitter.onListenerError s mid = Except.error destroyedMsg) ∧
      (∀ e m wid, EventEmitter.waitForEvent metaEnv s e m wid =
        Except.error destroyedMsg) ∧
      (∀ events m wid, EventEmitter.waitForAnyEvent metaEnv s events m wid =
        Except.error destroyedMsg)) := by
  refine ⟨destroy_destroyed metaEnv _ (destroy_isDestroyed metaEnv s),
    destroy_isDestroyed metaEnv s,
    fun ops h => replay_destroyed env metaEnv ops s h,
    fun h => ⟨fun e args => emit_destroyed env metaEnv s e args h,
      fun e tid => removeListener_destroyed metaEnv s e tid h,
      fun e tid => removeListener_destroyed metaEnv s e tid h,
      fun e => clearEventListeners_destroyed metaEnv s e h,
      fun e c => onOp_destroyed metaEnv s e c h,
      fun e oid wid => once_destroyed metaEnv s e oid wid h,
      fun mid => onMeta_destroyed s MetaCh.hasListeners mid h,
      fun mid => onMeta_destroyed s MetaCh.noListeners mid h,
      fun mid => onMeta_destroyed s MetaCh.listenerError mid h,
      fun e m wid => waitForAnyEvent_destroyed metaEnv s [e] m wid h,
      fun events m wid => waitForAnyEvent_destroyed metaEnv s events m wid h⟩⟩

/-- Witness for C3 at a concrete destroyed emitter. -/
theorem c3_destroyed_contract_witness :
    (EventEmitter.emit envNil metaNil (EventEmitter.destroy metaNil sA) "a" [] =
      EventEmitter.destroy metaNil sA) ∧
    (EventEmitter.onOp metaNil (EventEmitter.destroy metaNil sA) "a"
      ⟨9, CallKind.plain⟩ = Except.error destroyedMsg) ∧
    EventEmitter.replay envNil metaNil [EventEmitter.Op.opOn "a" 9]
      (EventEmitter.destroy metaNil sA) = EventEmitter.destroy metaNil sA := by
  have h := c3_destroyed_contract envNil metaNil (EventEmitter.destroy metaNil sA)
  have hd : (EventEmitter.destroy metaNil sA).isDestroyed = true := by decide
  exact ⟨(h.2.2.2 hd).1 "a" [], (h.2.2.2 hd).2.2.2.2.1 "a" _,
    h.2.2.1 [EventEmitter.Op.opOn "a" 9] hd⟩

/-- C4: after replaying any sequence of public operations from a state
satisfying the registry invariant, every key present in the registry still
maps to a non-empty listener sequence, and an event key is absent from the
registry iff its listener count is zero. -/
theorem c4_registry_invariant (env : LEnv) (metaEnv : MetaEnv)
    (ops : List EventEmitter.Op) (s : EmState) (hwf : EmWF s) :
    EmWF (EventEmitter.replay env metaEnv ops s) ∧
    ∀ e, getEv (EventEmitter.replay env metaEnv ops s) e = none ↔
      countEv (EventEmitter.replay env metaEnv ops s) e = 0 := by
  have h := wf_replay env metaEnv ops s hwf
  exact ⟨h, fun e => wf_absent_iff _ e h⟩

/-- Witness for C4 on a concrete operation sequence. -/
theorem c4_registry_invariant_witness :
    EmWF (EventEmitter.replay envNil metaNil
      [EventEmitter.Op.opOn "a" 1, EventEmitter.Op.opEmit "a" [],
       EventEmitter.Op.opOff "a" 1] initState) ∧
    (getEv (EventEmitter.replay envNil metaNil
      [EventEmitter.Op.opOn "a" 1, EventEmitter.Op.opEmit "a" [],
       EventEmitter.Op.opOff "a" 1] initState) "a" = none ↔
     countEv (EventEmitter.replay envNil metaNil
      [EventEmitter.Op.opOn "a" 1, EventEmitter.Op.opEmit "a" [],
       EventEmitter.Op.opOff "a" 1] initState) "a" = 0) := by
  have h := c4_registry_invariant envNil metaNil
    [EventEmitter.Op.opOn "a" 1, EventEmitter.Op.opEmit "a" [],
     EventEmitter.Op.opOff "a" 1] initState
    (by intro p hp; simp [initState] at hp)
  exact ⟨h.1, h.2 "a"⟩

/-- C7: dispatch on the `#listener-error` channel appends exactly one
delivery per registered error callback, a throwing error callback only
contributes a critical-error log entry when `logErrors` is set (never a
further `#listener-error` routing), and the reentrancy flag is restored;
a lifecycle dispatch entered with the flag down reports each throwing
callback exactly once through the `#listener-error` channel, so every
error-reporting chain stops after original failure, one report pass, and a
hard stop on meta-failure. -/
theorem c7_reentrancy_guard (metaEnv : MetaEnv) (args : List Val) (s : EmState) :
    (EventEmitter.emitInternal metaEnv MetaCh.listenerError args s =
      { s with trace := s.trace ++ errorReportTrace metaEnv s.logErrors args s.errL }) ∧
    (∀ x ∈ errorReportTrace metaEnv s.logErrors args s.errL,
      (∃ mid, x = TraceEv.meta mid MetaCh.listenerError args) ∨
      ∃ err, x = TraceEv.logInternal err) ∧
    (∀ ch, (EventEmitter.emitInternal metaEnv ch args s).isReportingError =
      s.isReportingError) ∧
    (∀ ch, ch ≠ MetaCh.listenerError → s.isReportingError = false →
      EventEmitter.emitInternal metaEnv ch args s =
        { s with trace := s.trace ++
            (lifecycleTrace metaEnv s.logErrors ch args s.errL (metaList s ch)) }) := by
  refine ⟨?_, ?_, ?_, ?_⟩
  · rw [emitInternal_err_eq]
    exact reportError_eq metaEnv args s
  · exact fun x hx =>
      guardedTrace_shape metaEnv s.logErrors MetaCh.listenerError args s.errL x hx
  · exact fun ch => (metaOnly_emitInternal metaEnv ch args s).1.2.2.2.2.1
  · exact fun ch hch h => emitInternal_lifecycle_eq metaEnv ch args s hch h

/-- Witness for C7 at a concrete state with a throwing meta callback. -/
theorem c7_reentrancy_guard_witness :
    EventEmitter.emitInternal (metaThrow 100 (Val.nat 1)) MetaCh.hasListeners
        [Val.str "z"] sMeta =
      { sMeta with trace := sMeta.trace ++
          (lifecycleTrace (metaThrow 100 (Val.nat 1)) sMeta.logErrors MetaCh.hasListeners
            [Val.str "z"] sMeta.errL (metaList sMeta MetaCh.hasListeners)) } :=
  (c7_reentrancy_guard (metaThrow 100 (Val.nat 1)) [Val.str "z"] sMeta).2.2.2
    MetaCh.hasListeners (by decide) (by decide)

/-! ### Lifecycle notification counting -/

theorem count_hasL_onOp (metaEnv : MetaEnv) (s : EmState) (e : String) (c : Callable)
    (t : EmState) (u : Unsub) (mid : Nat)
    (h : EventEmitter.onOp metaEnv s e c = Except.ok (t, u)) :
    List.count (TraceEv.meta mid MetaCh.hasListeners [Val.str e]) t.trace =
      List.count (TraceEv.meta mid MetaCh.hasListeners [Val.str e]) s.trace +
        (if countEv s e = 0 then s.hasL.count mid else 0) := by
  by_cases hd : s.isDestroyed = true
  · simp [EventEmitter.onOp, hd] at h
  · rw [Bool.not_eq_true] at hd
    unfold EventEmitter.onOp at h
    rw [if_neg (by simp [hd])] at h
    simp only [Except.ok.injEq, Prod.mk.injEq] at h
    obtain ⟨hT, _⟩ := h
    split at hT
    · rename_i hFirst
      subst hT
      rw [count_emitInternal_lifecycle metaEnv MetaCh.hasListeners [Val.str e]
        { s with events := pushEv s.events e c } mid (by simp)]
      have hzero : countEv s e = 0 := by
        cases hf : findEv s.events e with
        | none => simp [countEv, getEv, hf]
        | some l =>
          rw [hf] at hFirst
          simp only [List.isEmpty_iff] at hFirst
          simp [countEv, getEv, hf, hFirst]
      rw [if_pos hzero]
      rfl
    · rename_i hFirst
      subst hT
      have hnz : ¬ countEv s e = 0 := by
        cases hf : findEv s.events e with
        | none => rw [hf] at hFirst; simp at hFirst
        | some l =>
          rw [hf] at hFirst
          simp only [Bool.not_eq_true, List.isEmpty_eq_false] at hFirst
          simp only [countEv, getEv, hf, Option.getD_some]
          intro hc
          exact hFirst (List.length_eq_zero.1 hc)
      rw [if_neg hnz]
      rfl

theorem count_noL_removeListener (metaEnv : MetaEnv) (s : EmState) (e : String)
    (tid : Nat) (mid : Nat) (hlive : s.isDestroyed = false) :
    List.count (TraceEv.meta mid MetaCh.noListeners [Val.str e])
        (EventEmitter.removeListener metaEnv s e tid).trace =
      List.count (TraceEv.meta mid MetaCh.noListeners [Val.str e]) s.trace +
        (if ((getEv s e).getD []).any (fun c => matchesListener c tid) = true ∧
            countEv s e = 1 then s.noL.count mid else 0) := by
  unfold EventEmitter.removeListener
  rw [if_neg (by simp [hlive])]
  cases hf : findEv s.events e with
  | none =>
    rw [if_neg]
    · rfl
    · simp [getEv, hf]
  | some l =>
    dsimp only
    by_cases hany : l.any (fun c => matchesListener c tid) = true
    · rw [if_pos hany]
      have hlen := eraseMatch_length tid l hany
      by_cases hemp : (eraseMatch l tid).isEmpty = true
      · rw [if_pos hemp]
        rw [count_emitInternal_lifecycle metaEnv MetaCh.noListeners [Val.str e]
          { s with events := deleteEv s.events e } mid (by simp)]
        have hone : countEv s e = 1 := by
          rw [List.isEmpty_iff] at hemp
          rw [hemp] at hlen
          simp only [List.length_nil, Nat.zero_add] at hlen
          simp [countEv, getEv, hf, ← hlen]
        rw [if_pos ⟨by simp [getEv, hf, hany], hone⟩]
        rfl
      · rw [if_neg hemp]
        rw [if_neg]
        · rfl
        · rintro ⟨-, hone⟩
          rw [countEv, getEv, hf, Option.getD_some] at hone
          rw [hone] at hlen
          have : (eraseMatch l tid).length = 0 := by omega
          rw [List.length_eq_zero] at this
          rw [this] at hemp
          simp at hemp
    · rw [if_neg hany]
      rw [if_neg]
      · rfl
      · rintro ⟨ha, -⟩
        rw [getEv, hf, Option.getD_some] at ha
        exact hany ha

theorem count_noL_clearEv (metaEnv : MetaEnv) (s : EmState) (e : String) (mid : Nat)
    (hlive : s.isDestroyed = false) :
    List.count (TraceEv.meta mid MetaCh.noListeners [Val.str e])
        (EventEmitter.clearEventListeners metaEnv s e).trace =
      List.count (TraceEv.meta mid MetaCh.noListeners [Val.str e]) s.trace +
        (if 0 < countEv s e then s.noL.count mid else 0) := by
  unfold EventEmitter.clearEventListeners
  rw [if_neg (by simp [hlive])]
  cases hf : findEv s.events e with
  | none =>
    rw [if_neg]
    · rfl
    · simp [countEv, getEv, hf]
  | some l =>
    dsimp only
    by_cases hpos : l.length > 0
    · rw [if_pos hpos]
      rw [count_emitInternal_lifecycle metaEnv MetaCh.noListeners [Val.str e]
        { s with events := deleteEv s.events e } mid (by simp)]
      rw [if_pos (by simp [countEv, getEv, hf]; omega)]
      rfl
    · rw [if_neg hpos]
      rw [if_neg]
      · rfl
      · simp only [countEv, getEv, hf, Option.getD_some]
        omega

/-- C6: has-listeners meta callbacks are notified with payload `e` exactly
when a registration takes `e`'s listener count from 0 to 1; no-listeners
callbacks exactly when a removal takes the count from 1 to 0; and
`clearEventListeners` with at least one registered listener produces exactly
one no-listeners notification per registered callback occurrence (none when
no listener existed) — stated as exact counts of the corresponding trace
entries for every callback id `mid`. -/
theorem c6_lifecycle_transitions (metaEnv : MetaEnv) (s : EmState) (e : String)
    (mid : Nat) (hlive : s.isDestroyed = false) :
    (∀ c t u, EventEmitter.onOp metaEnv s e c = Except.ok (t, u) →
      List.count (TraceEv.meta mid MetaCh.hasListeners [Val.str e]) t.trace =
        List.count (TraceEv.meta mid MetaCh.hasListeners [Val.str e]) s.trace +
          (if countEv s e = 0 then s.hasL.count mid else 0)) ∧
    (∀ tid,
      List.count (TraceEv.meta mid MetaCh.noListeners [Val.str e])
          (EventEmitter.removeListener metaEnv s e tid).trace =
        List.count (TraceEv.meta mid MetaCh.noListeners [Val.str e]) s.trace +
          (if ((getEv s e).getD []).any (fun c => matchesListener c tid) = true ∧
              countEv s e = 1 then s.noL.count mid else 0)) ∧
    (List.count (TraceEv.meta mid MetaCh.noListeners [Val.str e])
        (EventEmitter.clearEventListeners metaEnv s e).trace =
      List.count (TraceEv.meta mid MetaCh.noListeners [Val.str e]) s.trace +
        (if 0 < countEv s e then s.noL.count mid else 0)) :=
  ⟨fun c t u h => count_hasL_onOp metaEnv s e c t u mid h,
   fun tid => count_noL_removeListener metaEnv s e tid mid hlive,
   count_noL_clearEv metaEnv s e mid hlive⟩

/-- Witness for C6: first registration on a fresh event fires the
has-listeners callback exactly once. -/
theorem c6_lifecycle_transitions_witness :
    List.count (TraceEv.meta 7 MetaCh.hasListeners [Val.str "x"])
        (okState (EventEmitter.onOp metaNil sHasMeta "x" ⟨1, CallKind.plain⟩)).trace =
      List.count (TraceEv.meta 7 MetaCh.hasListeners [Val.str "x"]) sHasMeta.trace +
        (if countEv sHasMeta "x" = 0 then sHasMeta.hasL.count 7 else 0) :=
  (c6_lifecycle_transitions metaNil sHasMeta "x" 7 (by decide)).1
    ⟨1, CallKind.plain⟩
    (okState (EventEmitter.onOp metaNil sHasMeta "x" ⟨1, CallKind.plain⟩))
    ⟨"x", 1⟩ rfl

/-! ### Snapshot dispatch and error isolation -/

theorem mem_joinMap {α β : Type} (f : α → List β) {a : α} {x : β} :
    ∀ {l : List α}, a ∈ l → x ∈ f a → x ∈ joinMap f l := by
  intro l
  induction l with
  | nil => intro h; simp at h
  | cons b rest ih =>
    intro h hx
    rcases List.mem_cons.1 h with h | h
    · subst h
      exact List.mem_append_left _ hx
    · exact List.mem_append_right _ (ih h hx)

theorem self_mem_invokeTriples (c : Callable) (ev : String) (args : List Val) :
    (c.id, ev, args) ∈ invokeTriples c ev args := by
  rcases c with ⟨cid, ck⟩
  cases ck <;> simp [invokeTriples]

theorem runQueue_append (env : LEnv) (metaEnv : MetaEnv) (ev : String) (args : List Val)
    (q1 q2 : List Callable) (s : EmState) :
    EventEmitter.runQueue env metaEnv ev args (q1 ++ q2) s =
      EventEmitter.runQueue env metaEnv ev args q2
        (EventEmitter.runQueue env metaEnv ev args q1 s) := by
  induction q1 generalizing s with
  | nil => rfl
  | cons c rest ih =>
    simp only [List.cons_append, EventEmitter.runQueue]
    cases hr : EventEmitter.runCallable env metaEnv s c ev args with
    | mk s1 thrown =>
      cases thrown with
      | none => exact ih s1
      | some err => exact ih _

/-- C1: an emission on a live emitter invokes exactly the listeners present
in the event's sequence at the moment the emission starts, in insertion
order and with the emission arguments (all state mutations performed by
listener bodies during the emission act on the shared emitter state but
cannot change the dispatched snapshot); in the concrete spec scenario,
listener A adding B during `emit("a")` does not get B invoked in that
emission, while a subsequent emission invokes both A and B. -/
theorem c1_snapshot_dispatch (env : LEnv) (metaEnv : MetaEnv) (s : EmState) (ev : String)
    (args : List Val) (hlive : s.isDestroyed = false) :
    (invokesOf (EventEmitter.emit env metaEnv s ev args).trace =
      invokesOf s.trace ++
        joinMap (fun c => invokeTriples c ev args) ((getEv s ev).getD [])) ∧
    (invokesOf (EventEmitter.emit envAddB metaNil sA "a" []).trace = [(1, "a", [])]) ∧
    (invokesOf (EventEmitter.emit envAddB metaNil
        (EventEmitter.emit envAddB metaNil sA "a" []) "a" []).trace =
      [(1, "a", []), (1, "a", []), (2, "a", [])]) :=
  ⟨invokes_emit env metaEnv s ev args hlive, by decide, by decide⟩

/-- Witness for C1 at a concrete live state. -/
theorem c1_snapshot_dispatch_witness :
    invokesOf (EventEmitter.emit envNil metaNil sA "a" [Val.nat 3]).trace =
      invokesOf sA.trace ++
        joinMap (fun c => invokeTriples c "a" [Val.nat 3]) ((getEv sA "a").getD []) :=
  (c1_snapshot_dispatch envNil metaNil sA "a" [Val.nat 3] (by decide)).1

/-- C2: when a snapshotted listener with a throwing body is dispatched, the
emission still completes with every other snapshot entry invoked (in
particular all later ones), the thrown value together with the event name
and the original arguments is delivered to every callback registered on the
`#listener-error` channel, the failure is written to the console sink when
`logErrors` is set and never when it is cleared, and the registry invariant
is preserved. -/
theorem c2_error_isolation (env : LEnv) (metaEnv : MetaEnv) (s : EmState) (e : String)
    (args : List Val) (pre post : List Callable) (cid : Nat) (v : Val)
    (hlive : s.isDestroyed = false)
    (hsnap : getEv s e = some (pre ++ ⟨cid, CallKind.plain⟩ :: post))
    (henv : env cid = [LAct.actThrow v]) :
    (∀ d ∈ pre ++ ⟨cid, CallKind.plain⟩ :: post,
      (d.id, e, args) ∈ invokesOf (EventEmitter.emit env metaEnv s e args).trace) ∧
    (∀ mid ∈ s.errL, TraceEv.meta mid MetaCh.listenerError (v :: Val.str e :: args) ∈
      (EventEmitter.emit env metaEnv s e args).trace) ∧
    (s.logErrors = true → TraceEv.logListener e v ∈
      (EventEmitter.emit env metaEnv s e args).trace) ∧
    (s.logErrors = false → NoLogListener s.trace →
      NoLogListener (EventEmitter.emit env metaEnv s e args).trace) ∧
    (EmWF s → EmWF (EventEmitter.emit env metaEnv s e args)) := by
  have hemit : EventEmitter.emit env metaEnv s e args =
      EventEmitter.runQueue env metaEnv e args (pre ++ ⟨cid, CallKind.plain⟩ :: post) s := by
    unfold EventEmitter.emit
    rw [if_neg (by simp [hlive])]
    rw [getEv] at hsnap
    rw [hsnap]
  refine ⟨?_, ?_, ?_,
    fun hlg hn => nolog_emit env metaEnv s e args hlg hn,
    fun hwf => wf_emit env metaEnv s e args hwf⟩
  · intro d hd
    rw [invokes_emit env metaEnv s e args hlive, hsnap]
    exact List.mem_append_right _
      (mem_joinMap (fun c => invokeTriples c e args) hd
        (self_mem_invokeTriples d e args))
  · intro mid hmid
    rw [hemit, runQueue_append]
    set s1 := EventEmitter.runQueue env metaEnv e args pre s with hs1
    have herrL : s1.errL = s.errL := (regCore_runQueue env metaEnv e args pre s).2.2.1
    have hrc : EventEmitter.runCallable env metaEnv s1 ⟨cid, CallKind.plain⟩ e args =
        ({ s1 with trace := s1.trace ++ [TraceEv.invoke cid e args] }, some v) := by
      simp only [EventEmitter.runCallable]
      rw [henv]
      rfl
    simp only [EventEmitter.runQueue, hrc]
    have hdel : TraceEv.meta mid MetaCh.listenerError (v :: Val.str e :: args) ∈
        (EventEmitter.reportError metaEnv (v :: Val.str e :: args)
          { s1 with trace := s1.trace ++ [TraceEv.invoke cid e args] }).trace :=
      reportError_delivers metaEnv _ _ mid (by
        show mid ∈ s1.errL
        rw [herrL]
        exact hmid)
    refine traceExt_mem (traceExt_runQueue env metaEnv e args post _) ?_
    split
    · exact List.mem_append_left _ hdel
    · exact hdel
  · intro hlg
    rw [hemit, runQueue_append]
    set s1 := EventEmitter.runQueue env metaEnv e args pre s with hs1
    have hlg1 : s1.logErrors = true := by
      rw [(regCore_runQueue env metaEnv e args pre s).2.2.2.2.2, hlg]
    have hrc : EventEmitter.runCallable env metaEnv s1 ⟨cid, CallKind.plain⟩ e args =
        ({ s1 with trace := s1.trace ++ [TraceEv.invoke cid e args] }, some v) := by
      simp only [EventEmitter.runCallable]
      rw [henv]
      rfl
    simp only [EventEmitter.runQueue, hrc]
    have hlg2 : (EventEmitter.reportError metaEnv (v :: Val.str e :: args)
        { s1 with trace := s1.trace ++ [TraceEv.invoke cid e args] }).logErrors = true := by
      rw [(regCore_reportError metaEnv _ _).2.2.2.2.2]
      exact hlg1
    split
    · refine traceExt_mem (traceExt_runQueue env metaEnv e args post _) ?_
      exact List.mem_append_right _ (List.mem_singleton.2 rfl)
    · rename_i hcon
      exact absurd hlg2 hcon

/-- Witness for C2: a throwing listener on `"b"` with a registered error
callback and a second listener. -/
theorem c2_error_isolation_witness :
    (∀ d ∈ ([] : List Callable) ++ (⟨5, CallKind.plain⟩ : Callable) ::
        [(⟨6, CallKind.plain⟩ : Callable)],
      (d.id, "b", [Val.nat 7]) ∈
        invokesOf (EventEmitter.emit envThrow5 metaNil sErr "b" [Val.nat 7]).trace) ∧
    (∀ mid ∈ sErr.errL, TraceEv.meta mid MetaCh.listenerError
        (Val.nat 9 :: Val.str "b" :: [Val.nat 7]) ∈
      (EventEmitter.emit envThrow5 metaNil sErr "b" [Val.nat 7]).trace) := by
  have h := c2_error_isolation envThrow5 metaNil sErr "b" [Val.nat 7] []
    [⟨6, CallKind.plain⟩] 5 (Val.nat 9) (by decide) (by decide) (by decide)
  exact ⟨h.1, h.2.1⟩

/-! ### once wrappers and removal through the ORIGINAL tag -/

theorem findEv_pushEv_self (e : String) (c : Callable) :
    ∀ evs : List (String × List Callable),
      findEv (pushEv evs e c) e = some ((findEv evs e).getD [] ++ [c]) := by
  intro evs
  induction evs with
  | nil => simp [pushEv, findEv]
  | cons kv rest ih =>
    rcases kv with ⟨k, l⟩
    by_cases hk : (k == e) = true
    · simp [pushEv, findEv, hk]
    · simp [pushEv, findEv, hk, ih]

theorem findEv_pushEv_other (e k : String) (c : Callable) (hk : k ≠ e) :
    ∀ evs : List (String × List Callable),
      findEv (pushEv evs e c) k = findEv evs k := by
  have hek : (e == k) = false := beq_eq_false_iff_ne.2 (Ne.symm hk)
  intro evs
  induction evs with
  | nil => simp [pushEv, findEv, hek]
  | cons kv rest ih =>
    rcases kv with ⟨k0, l⟩
    by_cases hk0 : (k0 == e) = true
    · have hk0k : (k0 == k) = false := by
        have h1 : k0 = e := eq_of_beq hk0
        subst h1
        exact beq_eq_false_iff_ne.2 (Ne.symm hk)
      simp [pushEv, findEv, hk0, hk0k]
    · simp only [pushEv, hk0, Bool.false_eq_true, if_false, findEv]
      by_cases hkk : (k0 == k) = true
      · simp [hkk]
      · simp [hkk, ih]

theorem deleteEv_pushEv_none (e : String) (c : Callable) :
    ∀ evs : List (String × List Callable), findEv evs e = none →
      deleteEv (pushEv evs e c) e = evs := by
  intro evs
  induction evs with
  | nil => intro _; simp [pushEv, deleteEv]
  | cons kv rest ih =>
    rcases kv with ⟨k, l⟩
    intro h
    simp only [findEv] at h
    by_cases hk : (k == e) = true
    · rw [if_pos hk] at h
      exact absurd h (by simp)
    · rw [if_neg hk] at h
      simp [pushEv, deleteEv, hk, ih h]

theorem updEv_pushEv_restore (e : String) (c : Callable) (l0 : List Callable) :
    ∀ evs : List (String × List Callable), findEv evs e = some l0 →
      updEv (pushEv evs e c) e l0 = evs := by
  intro evs
  induction evs with
  | nil => intro h; simp [findEv] at h
  | cons kv rest ih =>
    rcases kv with ⟨k, l⟩
    intro h
    simp only [findEv] at h
    by_cases hk : (k == e) = true
    · rw [if_pos hk] at h
      rw [Option.some.injEq] at h
      subst h
      simp [pushEv, updEv, hk]
    · rw [if_neg hk] at h
      simp [pushEv, updEv, hk, ih h]

theorem eraseMatch_append_nomatch (tid : Nat) (c : Callable)
    (hc : matchesListener c tid = true) :
    ∀ l : List Callable, (∀ d ∈ l, matchesListener d tid = false) →
      eraseMatch (l ++ [c]) tid = l := by
  intro l
  induction l with
  | nil => intro _; simp [eraseMatch, hc]
  | cons d rest ih =>
    intro h
    have hd : matchesListener d tid = false := h d (List.mem_cons_self _ _)
    simp only [List.cons_append, eraseMatch, hd, Bool.false_eq_true, if_false]
    exact congrArg (d :: ·) (ih (fun x hx => h x (List.mem_cons_of_mem _ hx)))

theorem push_then_remove (metaEnv : MetaEnv) (s : EmState) (e : String) (c : Callable)
    (tid : Nat) (hwf : EmWF s) (hmatch : matchesListener c tid = true)
    (hnomatch : ∀ d ∈ (getEv s e).getD [], matchesListener d tid = false)
    (t : EmState) (hev : t.events = pushEv s.events e c)
    (htlive : t.isDestroyed = false) :
    (EventEmitter.removeListener metaEnv t e tid).events = s.events := by
  unfold EventEmitter.removeListener
  rw [if_neg (by simp [htlive]), hev, findEv_pushEv_self e _ s.events]
  dsimp only
  rw [if_pos (by
    refine List.any_eq_true.2 ⟨c, List.mem_append_right _ ?_, hmatch⟩
    exact List.mem_singleton.2 rfl)]
  cases hf : findEv s.events e with
  | none =>
    simp only [Option.getD_none, List.nil_append]
    rw [show eraseMatch [c] tid = [] from by simp [eraseMatch, hmatch]]
    rw [if_pos (by rfl)]
    rw [(metaOnly_emitInternal metaEnv MetaCh.noListeners [Val.str e] _).2]
    exact deleteEv_pushEv_none e _ s.events hf
  | some l0 =>
    simp only [Option.getD_some]
    rw [eraseMatch_append_nomatch tid _ hmatch l0 (by
      intro d hd
      exact hnomatch d (by rw [getEv, hf]; exact hd))]
    have hl0ne : l0 ≠ [] := hwf (e, l0) (findEv_mem s.events e l0 hf)
    rw [if_neg (by simp [hl0ne])]
    exact updEv_pushEv_restore e _ l0 s.events hf

/-- C5: `once(e, L)` registers a wrapper carrying `L`'s identity in its
`ORIGINAL` tag, so `off(e, L)` with the original callable removes the once
registration even though `L` was never directly stored (the registry
returns exactly to its pre-`once` contents); the wrapper removes its own
registration synchronously before applying `L`, so `once` followed by three
emissions invokes `L` exactly once, the registration being gone after the
first emission. -/
theorem c5_once_semantics (metaEnv : MetaEnv) (s : EmState) (e : String) (L W : Nat)
    (hlive : s.isDestroyed = false) (hwf : EmWF s)
    (hnomatch : ∀ d ∈ (getEv s e).getD [], matchesListener d L = false) :
    (∀ t u, EventEmitter.once metaEnv s e L W = Except.ok (t, u) →
      (EventEmitter.removeListener metaEnv t e L).events = s.events) ∧
    (EventEmitter.emit envNil metaNil sOnce "a" []).events = [] ∧
    (EventEmitter.emit envNil metaNil
      (EventEmitter.emit envNil metaNil sOnce "a" []) "a" [] =
        EventEmitter.emit envNil metaNil sOnce "a" []) ∧
    (List.count (TraceEv.invoke 1 "a" [])
      (EventEmitter.emit envNil metaNil (EventEmitter.emit envNil metaNil
        (EventEmitter.emit envNil metaNil sOnce "a" []) "a" []) "a" []).trace = 1) := by
  refine ⟨?_, by decide, by decide, by decide⟩
  intro t u h
  obtain ⟨-, -, hev, hcore, -⟩ := onOp_ok metaEnv s e _ t u h
  have htlive : t.isDestroyed = false := by
    rw [hcore.2.2.2.1, hlive]
  have hwmatch : matchesListener ⟨W, CallKind.onceWrap e L⟩ L = true := by
    simp [matchesListener, originalOf]
  exact push_then_remove metaEnv s e ⟨W, CallKind.onceWrap e L⟩ L hwf hwmatch hnomatch
    t hev htlive

/-- Witness for C5: removing by the original id 3 after `once("a", 3)` on a
state already holding listener 1 restores the registry. -/
theorem c5_once_semantics_witness :
    (EventEmitter.removeListener metaNil
      (okState (EventEmitter.once metaNil sA "a" 3 4)) "a" 3).events = sA.events :=
  (c5_once_semantics metaNil sA "a" 3 4 (by decide)
    (by
      intro p hp
      have hev : sA.events = [("a", [(⟨1, CallKind.plain⟩ : Callable)])] := by decide
      rw [hev] at hp
      rw [List.mem_singleton] at hp
      subst hp
      simp)
    (by decide)).1
    (okState (EventEmitter.once metaNil sA "a" 3 4)) ⟨"a", 4⟩ rfl

/-! ### Unsubscriber behaviour -/

theorem removeListener_nomatch (metaEnv : MetaEnv) (s : EmState) (e : String) (tid : Nat)
    (hnomatch : ∀ d ∈ (getEv s e).getD [], matchesListener d tid = false) :
    EventEmitter.removeListener metaEnv s e tid = s := by
  unfold EventEmitter.removeListener
  split
  · rfl
  · cases hf : findEv s.events e with
    | none => rfl
    | some l =>
      dsimp only
      rw [if_neg]
      intro hany
      rcases List.any_eq_true.1 hany with ⟨d, hd, hpd⟩
      have := hnomatch d (by rw [getEv, hf]; exact hd)
      rw [this] at hpd
      exact absurd hpd (by simp)

/-- C8 as stated is false on the code: the unsubscriber closure re-runs
`removeListener(event, listener)` on every call, so with the same callable
registered twice on `"a"`, the second call after the first removal removes
the remaining copy (and fires a `#no-listeners` notification) instead of
being a no-op. -/
theorem c8_unsubscriber_counterexample :
    (EventEmitter.runUnsub metaNil sDup ⟨"a", 1⟩).events =
      [("a", [(⟨1, CallKind.plain⟩ : Callable)])] ∧
    (EventEmitter.runUnsub metaNil (EventEmitter.runUnsub metaNil sDup ⟨"a", 1⟩)
      ⟨"a", 1⟩).events = [] ∧
    EventEmitter.runUnsub metaNil (EventEmitter.runUnsub metaNil sDup ⟨"a", 1⟩) ⟨"a", 1⟩ ≠
      EventEmitter.runUnsub metaNil sDup ⟨"a", 1⟩ := by
  refine ⟨by decide, by decide, by decide⟩

/-- C8 (amended): the unsubscriber returned by a subscription removes the
first registration matching its bound listener; when the bound callable has
no other matching registration, one call removes exactly the registration it
was bound to, restoring the registry; a call made when no matching
registration remains is a complete no-op; and calling an unsubscriber on a
destroyed emitter is a no-op rather than an error.  (With the same callable
registered more than once, each call removes one further matching
occurrence, so repeated calls are not no-ops in general.) -/
theorem c8_unsubscriber_amended (metaEnv : MetaEnv) (s : EmState) (e : String)
    (c : Callable) (hlive : s.isDestroyed = false) (hwf : EmWF s)
    (hnomatch : ∀ d ∈ (getEv s e).getD [], matchesListener d c.id = false) :
    (∀ t u, EventEmitter.onOp metaEnv s e c = Except.ok (t, u) →
      (EventEmitter.runUnsub metaEnv t u).events = s.events) ∧
    (∀ tid, (∀ d ∈ (getEv s e).getD [], matchesListener d tid = false) →
      EventEmitter.runUnsub metaEnv s ⟨e, tid⟩ = s) ∧
    (∀ (s2 : EmState) (u : Unsub), s2.isDestroyed = true →
      EventEmitter.runUnsub metaEnv s2 u = s2) := by
  refine ⟨?_, ?_, ?_⟩
  · intro t u h
    obtain ⟨-, hu, hev, hcore, -⟩ := onOp_ok metaEnv s e c t u h
    have htlive : t.isDestroyed = false := by
      rw [hcore.2.2.2.1, hlive]
    subst hu
    exact push_then_remove metaEnv s e c c.id hwf (by simp [matchesListener]) hnomatch
      t hev htlive
  · intro tid hno
    exact removeListener_nomatch metaEnv s e tid hno
  · intro s2 u h
    exact removeListener_destroyed metaEnv s2 u.event u.targetId h

/-- Witness for C8 (amended): subscribing listener 2 on a state holding
listener 1 and running the returned unsubscriber once restores the
registry. -/
theorem c8_unsubscriber_amended_witness :
    (EventEmitter.runUnsub metaNil
      (okState (EventEmitter.onOp metaNil sA "a" ⟨2, CallKind.plain⟩))
      ⟨"a", 2⟩).events = sA.events :=
  (c8_unsubscriber_amended metaNil sA "a" ⟨2, CallKind.plain⟩ (by decide)
    (by
      intro p hp
      have hev : sA.events = [("a", [(⟨1, CallKind.plain⟩ : Callable)])] := by decide
      rw [hev] at hp
      rw [List.mem_singleton] at hp
      subst hp
      simp)
    (by decide)).1
    (okState (EventEmitter.onOp metaNil sA "a" ⟨2, CallKind.plain⟩)) ⟨"a", 2⟩ rfl

/-! ### The wait facility -/

theorem dedupFirst_nodup (l : List String) : (EventEmitter.dedupFirst l).Nodup := by
  have h : ∀ (l : List String) (acc : List String), acc.Nodup →
      (l.foldl (fun acc e => if e ∈ acc then acc else acc ++ [e]) acc).Nodup := by
    intro l
    induction l with
    | nil => intro acc h; exact h
    | cons e rest ih =>
      intro acc h
      by_cases he : e ∈ acc
      · simp only [List.foldl, if_pos he]
        exact ih acc h
      · simp only [List.foldl, if_neg he]
        refine ih _ ?_
        simp [List.nodup_append, h, he]
  exact h l [] List.nodup_nil

theorem subscribeAll_cons (metaEnv : MetaEnv) (c : Callable) (e : String)
    (l : List String) (s : EmState) :
    EventEmitter.subscribeAll metaEnv c (e :: l) s =
      EventEmitter.subscribeAll metaEnv c l
        (match EventEmitter.onOp metaEnv s e c with
         | Except.ok (st1, _) => st1
         | Except.error _ => s) := rfl

theorem subscribeAll_getEv (metaEnv : MetaEnv) (c : Callable) :
    ∀ (l : List String) (s : EmState), l.Nodup → s.isDestroyed = false →
      (EventEmitter.subscribeAll metaEnv c l s).isDestroyed = false ∧
      (∀ e' ∈ l, getEv (EventEmitter.subscribeAll metaEnv c l s) e' =
        some ((getEv s e').getD [] ++ [c])) ∧
      (∀ k, k ∉ l → getEv (EventEmitter.subscribeAll metaEnv c l s) k = getEv s k) := by
  intro l
  induction l with
  | nil =>
    intro s _ hlive
    exact ⟨hlive, fun e' he' => by simp at he', fun k _ => rfl⟩
  | cons e rest ih =>
    intro s hnodup hlive
    obtain ⟨t, ht⟩ := onOp_live metaEnv s e c hlive
    have hstep : EventEmitter.subscribeAll metaEnv c (e :: rest) s =
        EventEmitter.subscribeAll metaEnv c rest t := by
      rw [subscribeAll_cons, ht]
    obtain ⟨-, -, htev, htcore, -⟩ := onOp_ok metaEnv s e c t _ ht
    have htlive : t.isDestroyed = false := by rw [htcore.2.2.2.1, hlive]
    have henotin : e ∉ rest := (List.nodup_cons.1 hnodup).1
    obtain ⟨ih1, ih2, ih3⟩ := ih t (List.nodup_cons.1 hnodup).2 htlive
    refine ⟨by rw [hstep]; exact ih1, ?_, ?_⟩
    · intro e' he'
      rw [hstep]
      rcases List.mem_cons.1 he' with he' | he'
      · subst he'
        rw [ih3 e' henotin, getEv, htev]
        exact findEv_pushEv_self e' c s.events
      · rw [ih2 e' he']
        have hne : e' ≠ e := fun hcon => henotin (hcon ▸ he')
        rw [getEv, htev, findEv_pushEv_other e e' c hne s.events]
        rfl
    · intro k hk
      rw [hstep, ih3 k (fun hcon => hk (List.mem_cons_of_mem _ hcon))]
      have hne : k ≠ e := fun hcon => hk (hcon ▸ List.mem_cons_self _ _)
      rw [getEv, htev, findEv_pushEv_other e k c hne s.events]
      rfl

theorem findEv_not_mem_keys (e : String) :
    ∀ evs : List (String × List Callable), e ∉ evs.map Prod.fst →
      findEv evs e = none := by
  intro evs
  induction evs with
  | nil => intro _; rfl
  | cons kv rest ih =>
    rcases kv with ⟨k, l⟩
    intro h
    simp only [List.map_cons, List.mem_cons] at h
    push_neg at h
    simp only [findEv]
    rw [if_neg (by
      intro hcon
      exact h.1 (eq_of_beq hcon).symm)]
    exact ih h.2

theorem findEv_deleteEv_self (e : String) :
    ∀ evs : List (String × List Callable), (evs.map Prod.fst).Nodup →
      findEv (deleteEv evs e) e = none := by
  intro evs
  induction evs with
  | nil => intro _; rfl
  | cons kv rest ih =>
    rcases kv with ⟨k, l⟩
    intro h
    simp only [List.map_cons, List.nodup_cons] at h
    simp only [deleteEv]
    by_cases hk : (k == e) = true
    · rw [if_pos hk]
      have hke : k = e := eq_of_beq hk
      subst hke
      exact findEv_not_mem_keys k rest h.1
    · rw [if_neg hk]
      simp only [findEv]
      rw [if_neg hk]
      exact ih h.2

theorem findEv_updEv_self (e : String) (nl : List Callable) :
    ∀ (evs : List (String × List Callable)) (l0 : List Callable),
      findEv evs e = some l0 → findEv (updEv evs e nl) e = some nl := by
  intro evs
  induction evs with
  | nil => intro l0 h; simp [findEv] at h
  | cons kv rest ih =>
    rcases kv with ⟨k, l⟩
    intro l0 h
    simp only [findEv] at h
    simp only [updEv]
    by_cases hk : (k == e) = true
    · rw [if_pos hk]
      simp [findEv, hk]
    · rw [if_neg hk] at h ⊢
      simp only [findEv]
      rw [if_neg hk]
      exact ih l0 h

theorem findEv_deleteEv_other (e k : String) (hk : k ≠ e) :
    ∀ evs : List (String × List Callable),
      findEv (deleteEv evs e) k = findEv evs k := by
  intro evs
  induction evs with
  | nil => rfl
  | cons kv rest ih =>
    rcases kv with ⟨k0, l⟩
    simp only [deleteEv]
    by_cases hk0 : (k0 == e) = true
    · rw [if_pos hk0]
      have : k0 = e := eq_of_beq hk0
      subst this
      simp only [findEv]
      rw [if_neg (by
        intro hcon
        exact hk (eq_of_beq hcon).symm)]
    · rw [if_neg hk0]
      simp only [findEv]
      by_cases hkk : (k0 == k) = true
      · rw [if_pos hkk, if_pos hkk]
      · rw [if_neg hkk, if_neg hkk]
        exact ih

theorem findEv_updEv_other (e k : String) (nl : List Callable) (hk : k ≠ e) :
    ∀ evs : List (String × List Callable),
      findEv (updEv evs e nl) k = findEv evs k := by
  intro evs
  induction evs with
  | nil => rfl
  | cons kv rest ih =>
    rcases kv with ⟨k0, l⟩
    simp only [updEv]
    by_cases hk0 : (k0 == e) = true
    · rw [if_pos hk0]
      have : k0 = e := eq_of_beq hk0
      subst this
      simp only [findEv]
      have hne : (k0 == k) = false := beq_eq_false_iff_ne.2 (fun hcon => hk hcon.symm)
      rw [if_neg (by simp [hne]), if_neg (by simp [hne])]
    · rw [if_neg hk0]
      simp only [findEv]
      by_cases hkk : (k0 == k) = true
      · rw [if_pos hkk, if_pos hkk]
      · rw [if_neg hkk, if_neg hkk]
        exact ih

theorem matchCount_eraseMatch (tid : Nat) :
    ∀ l : List Callable, l.any (fun c => matchesListener c tid) = true →
      matchCount (eraseMatch l tid) tid + 1 = matchCount l tid := by
  intro l
  induction l with
  | nil => intro h; simp at h
  | cons c rest ih =>
    intro h
    by_cases hc : matchesListener c tid = true
    · simp [eraseMatch, matchCount, hc, List.countP_cons]
    · have hr : rest.any (fun c => matchesListener c tid) = true := by
        rcases List.any_eq_true.1 h with ⟨x, hx, hpx⟩
        rcases List.mem_cons.1 hx with hx | hx
        · subst hx; exact absurd hpx hc
        · exact List.any_eq_true.2 ⟨x, hx, hpx⟩
      simp only [eraseMatch, hc, Bool.false_eq_true, if_false, matchCount,
        List.countP_cons, hc]
      simp only [matchCount] at ih
      have h3 := ih hr
      omega

theorem removeListener_getEv_other (metaEnv : MetaEnv) (s : EmState) (e : String)
    (tid : Nat) (k : String) (hk : k ≠ e) :
    getEv (EventEmitter.removeListener metaEnv s e tid) k = getEv s k := by
  unfold EventEmitter.removeListener
  split
  · rfl
  · split
    · rfl
    · split
      · split
        · rw [getEv, (metaOnly_emitInternal metaEnv MetaCh.noListeners [Val.str e] _).2]
          exact findEv_deleteEv_other e k hk s.events
        · rw [getEv]
          exact findEv_updEv_other e k _ hk s.events
      · rfl

theorem keys_updEv (e : String) (nl : List Callable) :
    ∀ evs : List (String × List Callable),
      (updEv evs e nl).map Prod.fst = evs.map Prod.fst := by
  intro evs
  induction evs with
  | nil => rfl
  | cons kv rest ih =>
    rcases kv with ⟨k, l⟩
    simp only [updEv]
    by_cases hk : (k == e) = true
    · rw [if_pos hk]
      simp
    · rw [if_neg hk]
      simp [ih]

theorem keys_deleteEv_sublist (e : String) :
    ∀ evs : List (String × List Callable),
      List.Sublist ((deleteEv evs e).map Prod.fst) (evs.map Prod.fst) := by
  intro evs
  induction evs with
  | nil => exact List.Sublist.refl _
  | cons kv rest ih =>
    rcases kv with ⟨k, l⟩
    simp only [deleteEv]
    by_cases hk : (k == e) = true
    · rw [if_pos hk]
      exact List.sublist_cons_self _ _

    · rw [if_neg hk]
      simp only [List.map_cons]
      exact List.Sublist.cons₂ _ ih

theorem knd_removeListener (metaEnv : MetaEnv) (s : EmState) (e : String) (tid : Nat)
    (h : KeysND s) : KeysND (EventEmitter.removeListener metaEnv s e tid) := by
  unfold EventEmitter.removeListener
  split
  · exact h
  · split
    · exact h
    · split
      · split
        · show KeysND _
          unfold KeysND
          rw [(metaOnly_emitInternal metaEnv MetaCh.noListeners [Val.str e] _).2]
          exact h.sublist (keys_deleteEv_sublist e s.events)
        · unfold KeysND
          show ((updEv s.events e _).map Prod.fst).Nodup
          rw [keys_updEv]
          exact h
      · exact h

theorem removeListener_kills (metaEnv : MetaEnv) (s : EmState) (e : String) (tid : Nat)
    (hlive : s.isDestroyed = false) (hknd : KeysND s)
    (hcount : matchCount ((getEv s e).getD []) tid ≤ 1) :
    matchCount ((getEv (EventEmitter.removeListener metaEnv s e tid) e).getD []) tid
      = 0 := by
  unfold EventEmitter.removeListener
  rw [if_neg (by simp [hlive])]
  cases hf : findEv s.events e with
  | none =>
    show matchCount ((getEv s e).getD []) tid = 0
    rw [getEv, hf]
    simp [matchCount]
  | some l =>
    dsimp only
    by_cases hany : l.any (fun c => matchesListener c tid) = true
    · rw [if_pos hany]
      by_cases hemp : (eraseMatch l tid).isEmpty = true
      · rw [if_pos hemp]
        rw [getEv, (metaOnly_emitInternal metaEnv MetaCh.noListeners [Val.str e] _).2]
        show matchCount ((findEv (deleteEv s.events e) e).getD []) tid = 0
        rw [findEv_deleteEv_self e s.events hknd]
        simp [matchCount]
      · rw [if_neg hemp]
        rw [getEv]
        show matchCount ((findEv (updEv s.events e (eraseMatch l tid)) e).getD []) tid = 0
        rw [findEv_updEv_self e _ s.events l hf]
        have h1 := matchCount_eraseMatch tid l hany
        have h2 : matchCount l tid ≤ 1 := by
          rw [getEv, hf] at hcount
          exact hcount
        simp only [Option.getD_some]
        omega
    · rw [if_neg hany]
      show matchCount ((getEv s e).getD []) tid = 0
      rw [getEv, hf]
      simp only [Option.getD_some, matchCount]
      rw [List.countP_eq_zero]
      intro a ha
      rw [Bool.not_eq_true]
      rcases Bool.dichotomy (matchesListener a tid) with hb | hb
      · exact hb
      · exact absurd (List.any_eq_true.2 ⟨a, ha, hb⟩) hany

theorem fold_remove_getEv_other (metaEnv : MetaEnv) (wid : Nat) :
    ∀ (l : List String) (k : String), k ∉ l → ∀ t : EmState,
      getEv (l.foldl (fun st e => EventEmitter.removeListener metaEnv st e wid) t) k =
        getEv t k := by
  intro l
  induction l with
  | nil => intro k _ t; rfl
  | cons e0 rest ih =>
    intro k hk t
    have hne : k ≠ e0 := fun hcon => hk (hcon ▸ List.mem_cons_self _ _)
    show getEv (rest.foldl _ (EventEmitter.removeListener metaEnv t e0 wid)) k = getEv t k
    rw [ih k (fun hcon => hk (List.mem_cons_of_mem _ hcon))]
    exact removeListener_getEv_other metaEnv t e0 wid k hne

theorem fold_remove_kills (metaEnv : MetaEnv) (wid : Nat) :
    ∀ (l : List String) (t : EmState), t.isDestroyed = false → KeysND t → l.Nodup →
      (∀ e' ∈ l, matchCount ((getEv t e').getD []) wid ≤ 1) →
      ∀ e' ∈ l, matchCount
        ((getEv (l.foldl (fun st e => EventEmitter.removeListener metaEnv st e wid) t)
          e').getD []) wid = 0 := by
  intro l
  induction l with
  | nil => intro t _ _ _ _ e' he'; simp at he'
  | cons e0 rest ih =>
    intro t hlive hknd hnodup hcount e' he'
    have ht1live : (EventEmitter.removeListener metaEnv t e0 wid).isDestroyed = false := by
      rw [(regCore_removeListener metaEnv t e0 wid).2.2.2.1, hlive]
    have ht1knd : KeysND (EventEmitter.removeListener metaEnv t e0 wid) :=
      knd_removeListener metaEnv t e0 wid hknd
    have he0notin : e0 ∉ rest := (List.nodup_cons.1 hnodup).1
    show matchCount ((getEv (rest.foldl _ (EventEmitter.removeListener metaEnv t e0 wid))
      e').getD []) wid = 0
    rcases List.mem_cons.1 he' with he' | he'
    · subst he'
      rw [fold_remove_getEv_other metaEnv wid rest e' he0notin]
      exact removeListener_kills metaEnv t e' wid hlive hknd
        (hcount e' (List.mem_cons_self _ _))
    · refine ih (EventEmitter.removeListener metaEnv t e0 wid) ht1live ht1knd
        (List.nodup_cons.1 hnodup).2 ?_ e' he'
      intro e2 he2
      have hne : e2 ≠ e0 := fun hcon => he0notin (hcon ▸ he2)
      rw [removeListener_getEv_other metaEnv t e0 wid e2 hne]
      exact hcount e2 (List.mem_cons_of_mem _ he2)

theorem cleanup_kills (metaEnv : MetaEnv) (uniqs : List String) (hasT : Bool) (wid : Nat)
    (t : EmState) (hlive : t.isDestroyed = false) (hknd : KeysND t)
    (hnodup : uniqs.Nodup)
    (hcount : ∀ e' ∈ uniqs, matchCount ((getEv t e').getD []) wid ≤ 1) :
    ∀ e' ∈ uniqs, matchCount
      ((getEv (EventEmitter.cleanupWaiter metaEnv uniqs hasT wid t) e').getD [])
        wid = 0 := by
  unfold EventEmitter.cleanupWaiter
  cases hasT with
  | false =>
    rw [if_neg (by simp)]
    exact fold_remove_kills metaEnv wid uniqs t hlive hknd hnodup hcount
  | true =>
    rw [if_pos rfl]
    exact fold_remove_kills metaEnv wid uniqs
      { t with trace := t.trace ++ [TraceEv.timerCancel] } hlive hknd hnodup hcount

theorem timerCancel_mem_cleanup (metaEnv : MetaEnv) (uniqs : List String) (wid : Nat)
    (t : EmState) :
    TraceEv.timerCancel ∈ (EventEmitter.cleanupWaiter metaEnv uniqs true wid t).trace := by
  unfold EventEmitter.cleanupWaiter
  rw [if_pos rfl]
  refine traceExt_mem (traceExt_foldl _
    (fun st e => traceExt_removeListener metaEnv st e wid) uniqs _) ?_
  exact List.mem_append_right _ (List.mem_singleton.2 rfl)

theorem waiter_fire (env : LEnv) (metaEnv : MetaEnv) (t : EmState) (uniqs : List String)
    (hasT : Bool) (wid : Nat) (ev : String) (args : List Val)
    (hlive : t.isDestroyed = false) (hknd : KeysND t) (hnodup : uniqs.Nodup)
    (hcount : ∀ e' ∈ uniqs, matchCount ((getEv t e').getD []) wid ≤ 1) :
    (EventEmitter.runCallable env metaEnv t ⟨wid, CallKind.waiter uniqs hasT⟩ ev args).2 =
      none ∧
    (∀ e' ∈ uniqs, matchCount ((getEv (EventEmitter.runCallable env metaEnv t
      ⟨wid, CallKind.waiter uniqs hasT⟩ ev args).1 e').getD []) wid = 0) ∧
    (EventEmitter.runCallable env metaEnv t ⟨wid, CallKind.waiter uniqs hasT⟩ ev
      args).1.trace.getLast? = some (TraceEv.resolve true) ∧
    (hasT = true → TraceEv.timerCancel ∈ (EventEmitter.runCallable env metaEnv t
      ⟨wid, CallKind.waiter uniqs hasT⟩ ev args).1.trace) := by
  refine ⟨rfl, ?_, ?_, ?_⟩
  · intro e' he'
    exact cleanup_kills metaEnv uniqs hasT wid
      { t with trace := t.trace ++ [TraceEv.invoke wid ev args] } hlive hknd hnodup
      hcount e' he'
  · show (_ ++ [TraceEv.resolve true]).getLast? = some (TraceEv.resolve true)
    simp
  · intro h
    subst h
    show TraceEv.timerCancel ∈ _ ++ [TraceEv.resolve true]
    exact List.mem_append_left _ (timerCancel_mem_cleanup metaEnv uniqs wid _)

theorem waiter_timeout (metaEnv : MetaEnv) (t : EmState) (uniqs : List String)
    (wid : Nat) (hlive : t.isDestroyed = false) (hknd : KeysND t)
    (hnodup : uniqs.Nodup)
    (hcount : ∀ e' ∈ uniqs, matchCount ((getEv t e').getD []) wid ≤ 1) :
    (∀ e' ∈ uniqs, matchCount
      ((getEv (EventEmitter.timeoutFire metaEnv uniqs wid t) e').getD []) wid = 0) ∧
    (EventEmitter.timeoutFire metaEnv uniqs wid t).trace.getLast? =
      some (TraceEv.resolve false) ∧
    TraceEv.timerCancel ∈ (EventEmitter.timeoutFire metaEnv uniqs wid t).trace := by
  refine ⟨?_, ?_, ?_⟩
  · intro e' he'
    show matchCount ((getEv (EventEmitter.cleanupWaiter metaEnv uniqs true wid t)
      e').getD []) wid = 0
    exact cleanup_kills metaEnv uniqs true wid t hlive hknd hnodup hcount e' he'
  · show (_ ++ [TraceEv.resolve false]).getLast? = some (TraceEv.resolve false)
    simp
  · show TraceEv.timerCancel ∈ _ ++ [TraceEv.resolve false]
    exact List.mem_append_left _ (timerCancel_mem_cleanup metaEnv uniqs wid t)

theorem emit_resolves (env : LEnv) (metaEnv : MetaEnv) (t : EmState) (ev : String)
    (args : List Val) (l : List Callable) (wid : Nat) (uniqs : List String)
    (hasT : Bool) (hlive : t.isDestroyed = false) (hsnap : getEv t ev = some l)
    (hc : (⟨wid, CallKind.waiter uniqs hasT⟩ : Callable) ∈ l) :
    TraceEv.resolve true ∈ (EventEmitter.emit env metaEnv t ev args).trace := by
  obtain ⟨l1, l2, hl⟩ := List.append_of_mem hc
  subst hl
  have hemit : EventEmitter.emit env metaEnv t ev args =
      EventEmitter.runQueue env metaEnv ev args
        (l1 ++ ⟨wid, CallKind.waiter uniqs hasT⟩ :: l2) t := by
    unfold EventEmitter.emit
    rw [if_neg (by simp [hlive])]
    rw [getEv] at hsnap
    rw [hsnap]
  rw [hemit, runQueue_append]
  set s1 := EventEmitter.runQueue env metaEnv ev args l1 t with hs1
  simp only [EventEmitter.runQueue, EventEmitter.runCallable]
  refine traceExt_mem (traceExt_runQueue env metaEnv ev args l2 _) ?_
  exact List.mem_append_right _ (List.mem_singleton.2 rfl)

theorem waitForAnyEvent_ok (metaEnv : MetaEnv) (s : EmState) (events : List String)
    (m : Int) (wid : Nat) (hlive : s.isDestroyed = false)
    (r : EventEmitter.WaitResult)
    (h : EventEmitter.waitForAnyEvent metaEnv s events m wid = Except.ok r) :
    r.uniques = EventEmitter.dedupFirst events ∧ r.waiterId = wid ∧
    r.timerScheduled = decide (m > 0) ∧ r.state.isDestroyed = false ∧
    (∀ e' ∈ EventEmitter.dedupFirst events, getEv r.state e' =
      some ((getEv s e').getD [] ++
        [⟨wid, CallKind.waiter (EventEmitter.dedupFirst events) (decide (m > 0))⟩])) ∧
    (∀ k, k ∉ EventEmitter.dedupFirst events → getEv r.state k = getEv s k) := by
  unfold EventEmitter.waitForAnyEvent at h
  rw [if_neg (by simp [hlive])] at h
  rw [Except.ok.injEq] at h
  subst h
  obtain ⟨h1, h2, h3⟩ := subscribeAll_getEv metaEnv
    ⟨wid, CallKind.waiter (EventEmitter.dedupFirst events) (decide (m > 0))⟩
    (EventEmitter.dedupFirst events) s (dedupFirst_nodup events) hlive
  exact ⟨rfl, rfl, rfl, h1, h2, h3⟩

/-- C9: `waitForEvent` delegates to `waitForAnyEvent` on a singleton list;
the synchronous part of `waitForAnyEvent` on a live emitter deduplicates the
event list (first occurrences), subscribes the single shared resolver to
each unique event, and schedules a timer exactly when `max_wait_ms > 0`;
when the resolver fires it removes all of the call's subscriptions, cancels
the pending timer if one was scheduled, throws nothing, and ends the trace
with a `true` resolution; when the timer fires first, all subscriptions are
removed and the trace ends with a `false` resolution; and an emission of any
event whose snapshot holds the resolver records the `true` resolution. -/
theorem c9_wait_for_any (env : LEnv) (metaEnv : MetaEnv) (s : EmState)
    (events : List String) (m : Int) (wid : Nat) (hlive : s.isDestroyed = false) :
    (∀ e, EventEmitter.waitForEvent metaEnv s e m wid =
      EventEmitter.waitForAnyEvent metaEnv s [e] m wid) ∧
    (∀ r, EventEmitter.waitForAnyEvent metaEnv s events m wid = Except.ok r →
      r.uniques = EventEmitter.dedupFirst events ∧ r.waiterId = wid ∧
      r.timerScheduled = decide (m > 0) ∧ r.state.isDestroyed = false ∧
      (∀ e' ∈ EventEmitter.dedupFirst events, getEv r.state e' =
        some ((getEv s e').getD [] ++
          [⟨wid, CallKind.waiter (EventEmitter.dedupFirst events) (decide (m > 0))⟩])) ∧
      (∀ k, k ∉ EventEmitter.dedupFirst events → getEv r.state k = getEv s k)) ∧
    (∀ (t : EmState) (uniqs : List String) (hasT : Bool) (ev : String) (args : List Val),
      t.isDestroyed = false → KeysND t → uniqs.Nodup →
      (∀ e' ∈ uniqs, matchCount ((getEv t e').getD []) wid ≤ 1) →
      (EventEmitter.runCallable env metaEnv t ⟨wid, CallKind.waiter uniqs hasT⟩ ev
        args).2 = none ∧
      (∀ e' ∈ uniqs, matchCount ((getEv (EventEmitter.runCallable env metaEnv t
        ⟨wid, CallKind.waiter uniqs hasT⟩ ev args).1 e').getD []) wid = 0) ∧
      (EventEmitter.runCallable env metaEnv t ⟨wid, CallKind.waiter uniqs hasT⟩ ev
        args).1.trace.getLast? = some (TraceEv.resolve true) ∧
      (hasT = true → TraceEv.timerCancel ∈ (EventEmitter.runCallable env metaEnv t
        ⟨wid, CallKind.waiter uniqs hasT⟩ ev args).1.trace)) ∧
    (∀ (t : EmState) (uniqs : List String),
      t.isDestroyed = false → KeysND t → uniqs.Nodup →
      (∀ e' ∈ uniqs, matchCount ((getEv t e').getD []) wid ≤ 1) →
      (∀ e' ∈ uniqs, matchCount
        ((getEv (EventEmitter.timeoutFire metaEnv uniqs wid t) e').getD []) wid = 0) ∧
      (EventEmitter.timeoutFire metaEnv uniqs wid t).trace.getLast? =
        some (TraceEv.resolve false) ∧
      TraceEv.timerCancel ∈ (EventEmitter.timeoutFire metaEnv uniqs wid t).trace) ∧
    (∀ (t : EmState) (ev : String) (args : List Val) (l : List Callable)
        (uniqs : List String) (hasT : Bool),
      t.isDestroyed = false → getEv t ev = some l →
      (⟨wid, CallKind.waiter uniqs hasT⟩ : Callable) ∈ l →
      TraceEv.resolve true ∈ (EventEmitter.emit env metaEnv t ev args).trace) := by
  refine ⟨fun e => rfl,
    fun r h => waitForAnyEvent_ok metaEnv s events m wid hlive r h,
    fun t uniqs hasT ev args h1 h2 h3 h4 =>
      waiter_fire env metaEnv t uniqs hasT wid ev args h1 h2 h3 h4,
    fun t uniqs h1 h2 h3 h4 => waiter_timeout metaEnv t uniqs wid h1 h2 h3 h4,
    fun t ev args l uniqs hasT h1 h2 h3 =>
      emit_resolves env metaEnv t ev args l wid uniqs hasT h1 h2 h3⟩

/-- Witness for C9: a concrete three-name wait call with duplicates. -/
theorem c9_wait_for_any_witness :
    (EventEmitter.waitForEvent metaNil sA "p" 5 50 =
      EventEmitter.waitForAnyEvent metaNil sA ["p"] 5 50) ∧
    (okWait (EventEmitter.waitForAnyEvent metaNil sA ["p", "q", "p"] 5 50)).uniques =
      EventEmitter.dedupFirst ["p", "q", "p"] ∧
    (okWait (EventEmitter.waitForAnyEvent metaNil sA ["p", "q", "p"] 5 50)).timerScheduled
      = decide ((5 : Int) > 0) := by
  have h := c9_wait_for_any envNil metaNil sA ["p", "q", "p"] 5 50 (by decide)
  have h2 := h.2.1 (okWait (EventEmitter.waitForAnyEvent metaNil sA ["p", "q", "p"] 5 50))
    rfl
  exact ⟨h.1 "p", h2.1, h2.2.2.1⟩

/-- C10: on a live emitter, a `waitForAnyEvent` call with an empty event
list and non-positive `max_wait_ms` registers no listener and schedules no
timer: the synchronous part returns the state unchanged with an empty
subscription list and no timer, so neither resolution path of the returned
promise exists and it never settles. -/
theorem c10_empty_wait_never_settles (metaEnv : MetaEnv) (s : EmState) (m : Int)
    (wid : Nat) (hlive : s.isDestroyed = false) (hm : m ≤ 0) :
    EventEmitter.waitForAnyEvent metaEnv s [] m wid =
      Except.ok ⟨s, [], wid, false⟩ := by
  unfold EventEmitter.waitForAnyEvent
  rw [if_neg (by simp [hlive])]
  have h2 : decide (m > 0) = false := decide_eq_false (by omega)
  simp [EventEmitter.dedupFirst, EventEmitter.subscribeAll, h2]

/-- Witness for C10 at a concrete live state. -/
theorem c10_empty_wait_never_settles_witness :
    EventEmitter.waitForAnyEvent metaNil sA [] 0 50 =
      Except.ok ⟨sA, [], 50, false⟩ :=
  c10_empty_wait_never_settles metaNil sA 0 50 (by decide) (by decide)
